import Mathlib

/-!
Shallow embedding of the container library of the Dynamic Inventory Manager
repository: the separate-chaining hash map (`src/inventory/datastructures/hash_map.py`)
with its linked-list buckets (`linked_list.py`), the dictionary facade
(`dictionary.py`), the dynamic array (`custom_list.py`) and the binary min-heap
(`heap.py`).  Python `None` and the fresh sentinel object used by the dictionary
are modelled by the `PyObj` wrapper; raised exceptions are modelled by `Except`
results carrying a `PyErr`.
-/

deriving instance DecidableEq for Except

namespace Inventory

/-- Kinds of Python exceptions raised by the library, with their messages. -/
inductive PyErr where
  | indexError (msg : String)
  | valueError (msg : String)
  | keyError
deriving DecidableEq

/-- A Python object slot as used by the hash map: either the `None` singleton,
a proper value, or the fresh sentinel object created by `Dictionary.__getitem__`. -/
inductive PyObj (V : Type) where
  | pynone : PyObj V
  | val : V → PyObj V
  | sentinel : PyObj V
deriving DecidableEq

/-- Model of Python's `v is None` identity test. -/
def PyObj.isNone {V : Type} : PyObj V → Bool
  | .pynone => true
  | _ => false

/-- Model of the `val is sentinel` identity test in `Dictionary.__getitem__`. -/
def PyObj.isSentinel {V : Type} : PyObj V → Bool
  | .sentinel => true
  | _ => false

section LinkedList

variable {K V : Type} [DecidableEq K]

/-- One bucket chain: `LinkedList` from `linked_list.py`, as its list of
`(key, value)` pairs in head-to-tail order. -/
abbrev Chain (K V : Type) := List (K × PyObj V)

/-- The traversal of `LinkedList.insert_or_replace` that replaces the value of
the first node with the given key in place; `none` when no node matches. -/
def llReplace (k : K) (v : PyObj V) : Chain K V → Option (Chain K V)
  | [] => Option.none
  | (k', v') :: t =>
    if k' = k then some ((k', v) :: t)
    else (llReplace k v t).map (fun t' => (k', v') :: t')

/-- `LinkedList.insert_or_replace`: replace in place if the key is present,
otherwise prepend a new node at the head.  Returns `true` iff a new node
was inserted. -/
def insert_or_replace (k : K) (v : PyObj V) (l : Chain K V) : Bool × Chain K V :=
  match llReplace k v l with
  | some l' => (false, l')
  | Option.none => (true, (k, v) :: l)

/-- `LinkedList.find`: the value of the first node with the given key, or
Python `None` when absent — conflating a stored `None` with absence, exactly
as the source does. -/
def llFind (k : K) : Chain K V → PyObj V
  | [] => PyObj.pynone
  | (k', v') :: t => if k' = k then v' else llFind k t

/-- `LinkedList.delete`: remove the first node with the given key; the flag
tells whether a node was removed. -/
def llDelete (k : K) : Chain K V → Bool × Chain K V
  | [] => (false, [])
  | (k', v') :: t =>
    if k' = k then (true, t)
    else
      let r := llDelete k t
      (r.1, (k', v') :: r.2)

/-- Association-list lookup used in specifications: `some` the stored value of
the first node with the key, `none` when the key is absent.  Unlike `llFind`
this distinguishes a stored Python `None` from absence. -/
def lookupKey (k : K) : Chain K V → Option (PyObj V)
  | [] => Option.none
  | (k', v') :: t => if k' = k then some v' else lookupKey k t

end LinkedList

section HashMapDefs

variable {K V : Type} [DecidableEq K]

/-- State of `HashMap` from `hash_map.py`: capacity, load factor (a rational,
standing for the Python float), the bucket array (`none` = not yet allocated),
and the tracked size. -/
structure HashMap (K V : Type) where
  cap : Nat
  load : ℚ
  buckets : List (Option (Chain K V))
  size : Nat

namespace HashMap

/-- `HashMap._bucket_index`: bitmask fast path when the capacity is a power of
two, otherwise modulo. -/
def bucket_index (hash : K → Nat) (cap : Nat) (k : K) : Nat :=
  if cap &&& (cap - 1) = 0 then hash k &&& (cap - 1) else hash k % cap

/-- `HashMap.__init__`: capacities below 4 are raised to 4, buckets start
unallocated, size 0.  (The load-factor range check is carried as a hypothesis
by the theorems that need it.) -/
def init (capacity : Nat) (load : ℚ) : HashMap K V :=
  let c := if capacity < 4 then 4 else capacity
  ⟨c, load, List.replicate c Option.none, 0⟩

/-- The shared body of `set` and the re-insertion loop of `_resize`: compute the
bucket index, lazily allocate the bucket, delegate to `insert_or_replace`.
Returns the `inserted` flag; the size is adjusted by the callers. -/
def setRaw (hash : K → Nat) (m : HashMap K V) (k : K) (v : PyObj V) :
    Bool × HashMap K V :=
  let idx := bucket_index hash m.cap k
  let b := (m.buckets.getD idx Option.none).getD []
  let r := insert_or_replace k v b
  (r.1, { m with buckets := m.buckets.set idx (some r.2) })

/-- One iteration of the re-insertion loop of `HashMap._resize`: insert the
entry into the new buckets and increment the size unconditionally. -/
def reinsertOne (hash : K → Nat) (m : HashMap K V) (kv : K × PyObj V) :
    HashMap K V :=
  let m' := (setRaw hash m kv.1 kv.2).2
  { m' with size := m'.size + 1 }

/-- `HashMap._resize`: double the capacity, start from fresh buckets and size 0,
then rehash every entry of the old buckets directly. -/
def resize (hash : K → Nat) (m : HashMap K V) : HashMap K V :=
  m.buckets.foldl
    (fun acc ob =>
      match ob with
      | Option.none => acc
      | some b => b.foldl (reinsertOne hash) acc)
    { m with cap := m.cap * 2,
             buckets := List.replicate (m.cap * 2) Option.none,
             size := 0 }

/-- `HashMap.set`: insert or update; on an actual insertion increment the size
and resize when `size / capacity > load_factor`. -/
def set (hash : K → Nat) (m : HashMap K V) (k : K) (v : PyObj V) : HashMap K V :=
  let r := setRaw hash m k v
  if r.1 then
    let m'' : HashMap K V := { r.2 with size := r.2.size + 1 }
    if (m''.size : ℚ) / (m''.cap : ℚ) > m''.load then resize hash m'' else m''
  else r.2

/-- `HashMap.get`: default when the bucket is absent, else delegate to `find`,
returning the default when `find` yields Python `None`. -/
def get (hash : K → Nat) (m : HashMap K V) (k : K) (default : PyObj V) : PyObj V :=
  let idx := bucket_index hash m.cap k
  match m.buckets.getD idx Option.none with
  | Option.none => default
  | some b =>
    let v := llFind k b
    if v.isNone then default else v

/-- `HashMap.contains`: `bucket.find(key) is not None if bucket else False`. -/
def contains (hash : K → Nat) (m : HashMap K V) (k : K) : Bool :=
  let idx := bucket_index hash m.cap k
  match m.buckets.getD idx Option.none with
  | Option.none => false
  | some b => !(llFind k b).isNone

/-- `HashMap.delete`: remove the key from its bucket if present, decrementing
the size on success. -/
def delete (hash : K → Nat) (m : HashMap K V) (k : K) : Bool × HashMap K V :=
  let idx := bucket_index hash m.cap k
  match m.buckets.getD idx Option.none with
  | Option.none => (false, m)
  | some b =>
    let r := llDelete k b
    (r.1, { m with buckets := m.buckets.set idx (some r.2),
                   size := if r.1 then m.size - 1 else m.size })

/-- The doubling loop `while self._cap < needed_capacity: self._cap *= 2`. -/
def growCap (cap needed : Nat) : Nat :=
  if h : 0 < cap ∧ cap < needed then growCap (cap * 2) needed else cap
termination_by needed - cap
decreasing_by omega

/-- `HashMap.bulk_set`: precompute `int(len(items)/load) + 1`; when it exceeds
the capacity, double the capacity up to it and start from fresh buckets and
size 0 (without rehashing the old entries); then insert all the pairs. -/
def bulk_set (hash : K → Nat) (m : HashMap K V) (items : List (K × PyObj V)) :
    HashMap K V :=
  let needed : Int := Rat.floor ((items.length : ℚ) / m.load) + 1
  let m1 : HashMap K V :=
    if (m.cap : Int) < needed then
      let c := growCap m.cap needed.toNat
      { m with cap := c, buckets := List.replicate c Option.none, size := 0 }
    else m
  items.foldl (fun acc kv => set hash acc kv.1 kv.2) m1

/-- All entries of a bucket array, concatenated in bucket-index order — the
sequence produced by `HashMap.items()`. -/
def entriesOf (bs : List (Option (Chain K V))) : Chain K V :=
  (bs.map (fun ob => ob.getD [])).flatten

/-- `HashMap.items`: concatenation of all bucket chains in bucket order. -/
def items (m : HashMap K V) : Chain K V :=
  entriesOf m.buckets

/-- Specification-level lookup into the map: `some` the stored value when the
key is present, `none` when absent (no conflation with Python `None`). -/
def entry? (hash : K → Nat) (m : HashMap K V) (k : K) : Option (PyObj V) :=
  match m.buckets.getD (bucket_index hash m.cap k) Option.none with
  | Option.none => Option.none
  | some b => lookupKey k b

end HashMap

/-- `Dictionary.__getitem__` from `dictionary.py`: look the key up with a fresh
sentinel as default and raise `KeyError` when the sentinel comes back. -/
def Dictionary.getItem (hash : K → Nat) (m : HashMap K V) (k : K) :
    Except PyErr (PyObj V) :=
  let v := HashMap.get hash m k PyObj.sentinel
  if v.isSentinel then Except.error PyErr.keyError else Except.ok v

/-- A mutating map operation: `set` or `delete`. -/
inductive MOp (K V : Type) where
  | mset (k : K) (v : PyObj V)
  | mdel (k : K)

/-- Apply one map operation. -/
def applyOp (hash : K → Nat) (m : HashMap K V) : MOp K V → HashMap K V
  | .mset k v => HashMap.set hash m k v
  | .mdel k => (HashMap.delete hash m k).2

/-- Apply a sequence of map operations in order. -/
def applyOps (hash : K → Nat) (m : HashMap K V) (ops : List (MOp K V)) :
    HashMap K V :=
  ops.foldl (applyOp hash) m

/-- Apply one map operation while counting insertion events (a `set` whose key
was absent) and successful deletions. -/
def opCount (hash : K → Nat) :
    HashMap K V × Nat × Nat → MOp K V → HashMap K V × Nat × Nat
  | (m, ins, del), .mset k v =>
    (HashMap.set hash m k v,
     (if (HashMap.entry? hash m k).isNone then ins + 1 else ins), del)
  | (m, ins, del), .mdel k =>
    let r := HashMap.delete hash m k
    (r.2, ins, if r.1 then del + 1 else del)

/-- Run a sequence of map operations from a starting map, counting insertion
events and successful deletions. -/
def runCount (hash : K → Nat) (m : HashMap K V) (ops : List (MOp K V)) :
    HashMap K V × Nat × Nat :=
  ops.foldl (opCount hash) (m, 0, 0)

/-- The keys named by the `set` operations of a sequence, in order. -/
def setKeys : List (MOp K V) → List K
  | [] => []
  | .mset k _ :: t => k :: setKeys t
  | .mdel _ :: t => setKeys t

/-- Fold `set` over a list of key-value pairs (a sequence of `set` calls). -/
def setFold (hash : K → Nat) (m : HashMap K V) (ps : List (K × PyObj V)) :
    HashMap K V :=
  ps.foldl (fun acc kv => HashMap.set hash acc kv.1 kv.2) m

/-- The value of the last `set` of a key in a sequence of pairs, if any. -/
def lastVal (k : K) : List (K × PyObj V) → Option (PyObj V)
  | [] => Option.none
  | (k', v) :: t =>
    match lastVal k t with
    | some w => some w
    | Option.none => if k' = k then some v else Option.none

/-- Well-formedness of a hash-map state: the bucket array has `cap` slots,
`cap` is positive, every entry sits in the bucket its key hashes to, bucket
chains have pairwise-distinct keys, and `size` counts the entries. -/
structure WF (hash : K → Nat) (m : HashMap K V) : Prop where
  hlen : m.buckets.length = m.cap
  hpos : 0 < m.cap
  hidx : ∀ (i : Nat) (b : Chain K V) (kv : K × PyObj V),
    m.buckets[i]? = some (some b) → kv ∈ b →
    HashMap.bucket_index hash m.cap kv.1 = i
  hnodup : ∀ (i : Nat) (b : Chain K V), m.buckets[i]? = some (some b) →
    (b.map Prod.fst).Nodup
  hsize : m.size = (HashMap.entriesOf m.buckets).length

end HashMapDefs

section CustomListDefs

variable {T : Type}

namespace CustomList

/-- `CustomList._normalize_index`: add the size to a negative index, then
require the result to lie in `[0, size)`. -/
def normalize_index (idx : Int) (size : Nat) : Except PyErr Nat :=
  let i := if idx < 0 then idx + size else idx
  if i < 0 ∨ (size : Int) ≤ i then
    Except.error (PyErr.indexError "list index out of range")
  else Except.ok i.toNat

/-- The left-shift loop of `CustomList.pop`: each slot from the start of the
suffix is overwritten with its right neighbour (`buf[j] = buf[j+1]`). -/
def shiftStep : List T → List T
  | [] => []
  | [a] => [a]
  | _ :: b :: t => b :: shiftStep (b :: t)

/-- The buffer after the shift loop of `pop` at index `i`: the prefix before
`i` is untouched, the suffix from `i` is shifted left (its last slot keeps a
stale copy, cleared by the caller). -/
def shiftLeft (l : List T) (i : Nat) : List T :=
  l.take i ++ shiftStep (l.drop i)

/-- `CustomList.pop`: fail on an empty list, normalize the index, read the
element, shift the trailing elements left, and drop the stale last slot.
The state is the list of live elements (`buf[0:size]`); the capacity-shrink
step does not change them. -/
def pop (l : List T) (idx : Int) : Except PyErr (T × List T) :=
  if l.length = 0 then Except.error (PyErr.indexError "pop from empty list")
  else
    match CustomList.normalize_index idx l.length with
    | Except.error e => Except.error e
    | Except.ok i =>
      match l[i]? with
      | some v => Except.ok (v, (shiftLeft l i).dropLast)
      | Option.none => Except.error (PyErr.indexError "pop from empty list")

/-- The behaviour of `pop` as the specification states it: `EmptyContainer` on
size 0, `IndexOutOfRange` when the normalized index is outside `[0, size)`,
otherwise remove and return the element at the normalized index. -/
def popSpec (l : List T) (idx : Int) : Except PyErr (T × List T) :=
  if l.length = 0 then Except.error (PyErr.indexError "pop from empty list")
  else
    let n : Int := if idx < 0 then idx + l.length else idx
    if h : 0 ≤ n ∧ n < l.length then
      Except.ok (l.get ⟨n.toNat, by omega⟩, l.eraseIdx n.toNat)
    else Except.error (PyErr.indexError "list index out of range")

end CustomList

end CustomListDefs

section HeapDefs

variable {T : Type} [LinearOrder T]

namespace MinHeap

/-- One comparison step of `_sift_down`'s smallest-child selection: `j` wins
when it is in range and its element is strictly smaller than the one at `s`. -/
def smaller (l : List T) (s j : Nat) : Nat :=
  match l[j]?, l[s]? with
  | some x, some y => if x < y then j else s
  | _, _ => s

/-- The index of the smallest of node `i` and its two children, computed by
the two comparisons of `_sift_down`. -/
def smallest (l : List T) (i : Nat) : Nat :=
  smaller l (smaller l i (2 * i + 1)) (2 * i + 2)

/-- `MinHeap._sift_down`: pick the smallest of the node and its two children;
stop if the node itself is smallest, else swap and continue below. -/
def sift_down (l : List T) (i : Nat) : List T :=
  let s := smallest l i
  if hs : s = i then l
  else
    match hx : l[i]?, hy : l[s]? with
    | some x, some y => sift_down ((l.set i y).set s x) s
    | _, _ => l
termination_by l.length - i
decreasing_by
  simp only [List.length_set]
  have hmem : ∀ (L : List T) (a b : Nat), smaller L a b = a ∨ smaller L a b = b := by
    intro L a b
    unfold smaller
    rcases L[b]? with _ | u
    · exact Or.inl rfl
    rcases L[a]? with _ | w
    · exact Or.inl rfl
    by_cases h : u < w
    · simp [h]
    · simp [h]
  have hlt : s < l.length := (List.getElem?_eq_some_iff.mp hy).1
  have h1 := hmem l (smaller l i (2 * i + 1)) (2 * i + 2)
  have h2 := hmem l i (2 * i + 1)
  have hgt : i < s := by
    have hss : s = smaller l (smaller l i (2 * i + 1)) (2 * i + 2) := rfl
    rcases h1 with h1 | h1 <;> rcases h2 with h2 | h2 <;>
      rw [h2] at h1 hss <;> rw [h1] at hss <;> omega
  omega

/-- `MinHeap._sift_up`: swap the node with its parent while the parent is
strictly larger. -/
def sift_up (l : List T) (j : Nat) : List T :=
  if hj : j = 0 then l
  else
    match l[(j - 1) / 2]?, l[j]? with
    | some a, some b =>
      if a ≤ b then l
      else sift_up ((l.set ((j - 1) / 2) b).set j a) ((j - 1) / 2)
    | _, _ => l
termination_by j
decreasing_by omega

/-- `MinHeap.push`: append, then sift the last element up. -/
def push (l : List T) (x : T) : List T :=
  sift_up (l ++ [x]) l.length

/-- `MinHeap.pop`: fail on an empty heap; otherwise save the root, move the
last element into the root slot, shrink by one and sift down. -/
def pop (l : List T) : Except PyErr (T × List T) :=
  match l with
  | [] => Except.error (PyErr.indexError "pop from empty heap")
  | top :: rest =>
    let last := List.getLastD rest top
    match List.dropLast (top :: rest) with
    | [] => Except.ok (top, [])
    | b :: d => Except.ok (top, sift_down ((b :: d).set 0 last) 0)

/-- `MinHeap.peek`: the root, or Python `None` on an empty heap. -/
def peek (l : List T) : Option T :=
  match l with
  | [] => Option.none
  | top :: _ => some top

/-- `MinHeap.replace`: fail on an empty heap; otherwise overwrite the root
with the new item, sift down once, and return the old root. -/
def replace (l : List T) (x : T) : Except PyErr (T × List T) :=
  match l with
  | [] => Except.error (PyErr.indexError "replace on empty heap")
  | top :: rest => Except.ok (top, sift_down ((top :: rest).set 0 x) 0)

/-- `MinHeap.pushpop`: when the heap is non-empty and its root is strictly
smaller than the item, swap the item into the root, sift down and return the
old root; otherwise return the item with the heap untouched. -/
def pushpop (l : List T) (x : T) : T × List T :=
  match l with
  | [] => (x, [])
  | r :: rest =>
    if r < x then (r, sift_down ((r :: rest).set 0 x) 0) else (x, r :: rest)

/-- The loop of `MinHeap._heapify`: `for i in reversed(range(n // 2))`. -/
def heapifyLoop (l : List T) : Nat → List T
  | 0 => l
  | i + 1 => heapifyLoop (sift_down l i) i

/-- `MinHeap._heapify` (as called by the bulk constructor): sift every
internal node down, from the last parent back to the root. -/
def heapify (l : List T) : List T :=
  heapifyLoop l (l.length / 2)

/-- Repeated `pop` with explicit fuel (each pop removes one element, so fuel
equal to the length suffices). -/
def popAllFuel : Nat → List T → List T
  | 0, _ => []
  | n + 1, l =>
    match pop l with
    | Except.error _ => []
    | Except.ok (x, l') => x :: popAllFuel n l'

/-- Popping repeatedly until the heap is empty, collecting the results. -/
def popAll (l : List T) : List T :=
  popAllFuel l.length l

/-- Heap edges whose parent index is at least `start` are ordered (the region
Floyd's construction has already repaired). -/
def HeapFrom (l : List T) (start : Nat) : Prop :=
  ∀ j x y, 0 < j → start ≤ (j - 1) / 2 →
    l[j]? = some x → l[(j - 1) / 2]? = some y → y ≤ x

/-- The min-heap invariant: every non-root node is at least its parent. -/
def IsHeap (l : List T) : Prop :=
  HeapFrom l 0

/-- Executable check of `HeapFrom`, for concrete witnesses. -/
def heapFromB (l : List T) (start : Nat) : Bool :=
  (List.range l.length).all fun j =>
    if 0 < j ∧ start ≤ (j - 1) / 2 then
      match l[j]?, l[(j - 1) / 2]? with
      | some x, some y => decide (y ≤ x)
      | _, _ => true
    else true

/-- `j` lies in the subtree rooted at `i` of the implicit binary tree. -/
def isAnc (i j : Nat) : Bool :=
  if j ≤ i then j == i else isAnc i ((j - 1) / 2)
termination_by j
decreasing_by omega

end MinHeap

end HeapDefs

section ListAux

variable {A : Type}

/-- Setting a slot to the value it already holds leaves the list unchanged. -/
theorem set_eq_self_of_getElem (l : List A) (i : Nat) (x : A) (h : l[i]? = some x) :
    l.set i x = l := by
  induction l generalizing i with
  | nil => simp at h
  | cons a t ih =>
    cases i with
    | zero =>
      simp only [List.getElem?_cons_zero, Option.some.injEq] at h
      simp [h]
    | succ n =>
      simp only [List.getElem?_cons_succ] at h
      simp [List.set, ih n h]

/-- Pulling the element at slot `j` to the front while writing `x` into its
slot is a permutation of pushing `x` to the front. -/
theorem cons_set_perm (l : List A) (j : Nat) (x y : A) (h : l[j]? = some y) :
    (y :: l.set j x).Perm (x :: l) := by
  induction l generalizing j with
  | nil => simp at h
  | cons a t ih =>
    cases j with
    | zero =>
      simp only [List.getElem?_cons_zero, Option.some.injEq] at h
      subst h
      simpa using List.Perm.swap x a t
    | succ n =>
      simp only [List.getElem?_cons_succ] at h
      have h0 : (y :: (a :: t).set (n + 1) x) = y :: a :: t.set n x := by
        simp [List.set]
      rw [h0]
      exact ((List.Perm.swap a y (t.set n x)).trans ((ih n h).cons a)).trans
        (List.Perm.swap x a t)

/-- Swapping the contents of two slots is a permutation. -/
theorem set_set_perm (l : List A) (i j : Nat) (x y : A)
    (hi : l[i]? = some x) (hj : l[j]? = some y) :
    ((l.set i y).set j x).Perm l := by
  induction l generalizing i j with
  | nil => simp at hi
  | cons a t ih =>
    cases i with
    | zero =>
      simp only [List.getElem?_cons_zero, Option.some.injEq] at hi
      subst hi
      cases j with
      | zero =>
        simp only [List.getElem?_cons_zero, Option.some.injEq] at hj
        subst hj
        simp
      | succ m =>
        simp only [List.getElem?_cons_succ] at hj
        simpa [List.set] using cons_set_perm t m _ _ hj
    | succ n =>
      simp only [List.getElem?_cons_succ] at hi
      cases j with
      | zero =>
        simp only [List.getElem?_cons_zero, Option.some.injEq] at hj
        subst hj
        simpa [List.set] using cons_set_perm t n _ _ hi
      | succ m =>
        simp only [List.getElem?_cons_succ] at hj
        simpa [List.set] using (ih n m hi hj).cons a

end ListAux

namespace MinHeap

variable {T : Type} [LinearOrder T]

/-- `smaller` returns one of its two candidate indices. -/
theorem smaller_cases (l : List T) (a b : Nat) :
    smaller l a b = a ∨ smaller l a b = b := by
  unfold smaller
  rcases l[b]? with _ | u
  · exact Or.inl rfl
  rcases l[a]? with _ | w
  · exact Or.inl rfl
  by_cases h : u < w
  · simp [h]
  · simp [h]

/-- When `smaller` switches to the challenger, both slots are populated and the
challenger is strictly smaller. -/
theorem smaller_ne (l : List T) (a b : Nat) (h : smaller l a b ≠ a) :
    ∃ u w, l[a]? = some w ∧ l[b]? = some u ∧ u < w ∧ smaller l a b = b := by
  unfold smaller at h ⊢
  rcases hb : l[b]? with _ | u
  · simp [hb] at h
  rcases ha : l[a]? with _ | w
  · simp [ha, hb] at h
  by_cases hlt : u < w
  · exact ⟨u, w, rfl, rfl, hlt, by simp [hlt]⟩
  · simp [ha, hb, hlt] at h

/-- When `smaller` keeps the incumbent and the challenger's slot is populated,
the incumbent's element (if its slot is populated) is not larger. -/
theorem smaller_keep (l : List T) (a b : Nat) (h : smaller l a b = a)
    (hab : a ≠ b) :
    ∀ u w, l[b]? = some u → l[a]? = some w → w ≤ u := by
  intro u w hb ha
  unfold smaller at h
  rw [hb, ha] at h
  by_cases hlt : u < w
  · simp [hlt] at h
    omega
  · exact le_of_not_lt hlt

/-- Unfolding `sift_down` when the node is already the smallest. -/
theorem sift_down_eq_self (l : List T) (i : Nat) (h : smallest l i = i) :
    sift_down l i = l := by
  rw [sift_down.eq_def]
  simp [h]

/-- Unfolding `sift_down` when a child is strictly smaller: swap and recurse. -/
theorem sift_down_eq_step (l : List T) (i : Nat) (x y : T)
    (hs : smallest l i ≠ i) (hx : l[i]? = some x)
    (hy : l[smallest l i]? = some y) :
    sift_down l i = sift_down ((l.set i y).set (smallest l i) x) (smallest l i) := by
  rw [sift_down.eq_def]
  simp only [hs, dite_false]
  split
  next u w hu hw =>
    rw [hx] at hu
    rw [hy] at hw
    cases hu
    cases hw
    rfl
  next hcon =>
    exact (hcon x y hx hy).elim

/-- Every index is in its own subtree. -/
theorem isAnc_self (i : Nat) : isAnc i i = true := by
  rw [isAnc.eq_def]
  simp

/-- Subtree membership only reaches indices at or below the root. -/
theorem isAnc_le {i j : Nat} (h : isAnc i j = true) : i ≤ j := by
  rw [isAnc.eq_def] at h
  by_cases hle : j ≤ i
  · simp only [hle, if_true, beq_iff_eq] at h
    omega
  · omega

/-- A strict member of a subtree got there through its parent. -/
theorem isAnc_parent {i j : Nat} (h : isAnc i j = true) (hne : j ≠ i) :
    isAnc i ((j - 1) / 2) = true := by
  rw [isAnc.eq_def] at h
  by_cases hle : j ≤ i
  · simp only [hle, if_true, beq_iff_eq] at h
    exact absurd h hne
  · simpa [hle] using h

/-- Indices below the root are outside its subtree. -/
theorem isAnc_eq_false_of_lt {i j : Nat} (h : j < i) : isAnc i j = false := by
  rw [isAnc.eq_def]
  rw [if_pos (Nat.le_of_lt h)]
  simp only [beq_eq_false_iff_ne, ne_eq]
  omega

/-- The children of a subtree member are subtree members. -/
theorem isAnc_child {i k : Nat} (h : isAnc i k = true) :
    isAnc i (2 * k + 1) = true ∧ isAnc i (2 * k + 2) = true := by
  have hik : i ≤ k := isAnc_le h
  constructor
  · rw [isAnc.eq_def]
    have : ¬ (2 * k + 1 ≤ i) := by omega
    simp only [this, if_false]
    have hp : (2 * k + 1 - 1) / 2 = k := by omega
    rw [hp]
    exact h
  · rw [isAnc.eq_def]
    have : ¬ (2 * k + 2 ≤ i) := by omega
    simp only [this, if_false]
    have hp : (2 * k + 2 - 1) / 2 = k := by omega
    rw [hp]
    exact h

/-- Subtree membership is transitive. -/
theorem isAnc_trans {i j : Nat} (hij : isAnc i j = true) :
    ∀ k, isAnc j k = true → isAnc i k = true := by
  intro k
  induction k using Nat.strong_induction_on with
  | _ k ih =>
    intro hjk
    rw [isAnc.eq_def] at hjk
    by_cases hle : k ≤ j
    · simp only [hle, if_true, beq_iff_eq] at hjk
      subst hjk
      exact hij
    · simp only [hle, if_false] at hjk
      have hk : 0 < k := by
        have := isAnc_le hij
        omega
      have := ih ((k - 1) / 2) (by omega) hjk
      rw [isAnc.eq_def]
      have : ¬ (k ≤ i) := by
        have := isAnc_le hij
        omega
      simp only [this, if_false]
      exact ih ((k - 1) / 2) (by omega) hjk

/-- Every index is in the subtree of the root. -/
theorem isAnc_zero (j : Nat) : isAnc 0 j = true := by
  induction j using Nat.strong_induction_on with
  | _ j ih =>
    rw [isAnc.eq_def]
    by_cases hle : j ≤ 0
    · simp [show j = 0 by omega]
    · simp only [hle, if_false]
      exact ih ((j - 1) / 2) (by omega)

/-- When `_sift_down`'s comparisons pick a child, both slots are populated, the
child is strictly smaller than the node, and neither child is smaller than it. -/
theorem smallest_spec (l : List T) (i : Nat) (h : smallest l i ≠ i) :
    ∃ x y, l[i]? = some x ∧ l[smallest l i]? = some y ∧ y < x ∧
      (smallest l i = 2 * i + 1 ∨ smallest l i = 2 * i + 2) ∧
      (∀ w, l[2 * i + 1]? = some w → y ≤ w) ∧
      (∀ w, l[2 * i + 2]? = some w → y ≤ w) := by
  have hss : smallest l i = smaller l (smaller l i (2 * i + 1)) (2 * i + 2) := rfl
  rcases smaller_cases l (smaller l i (2 * i + 1)) (2 * i + 2) with ho | ho
  · -- outer comparison keeps the inner winner
    rw [hss, ho] at h ⊢
    rcases smaller_ne l i (2 * i + 1) h with ⟨u, w, hi, hc, hlt, hs1⟩
    rw [hs1] at ho ⊢
    refine ⟨w, u, hi, hc, hlt, Or.inl rfl, ?_, ?_⟩
    · intro w' hw'
      rw [hc] at hw'
      cases hw'
      exact le_refl _
    · intro w' hw'
      have hk := smaller_keep l (2 * i + 1) (2 * i + 2) ho (by omega) w' u hw' hc
      exact hk
  · -- outer comparison switches to the right child
    have hs1 : smaller l i (2 * i + 1) ≠ 2 * i + 2 := by
      rcases smaller_cases l i (2 * i + 1) with hq | hq <;> omega
    rcases smaller_ne l (smaller l i (2 * i + 1)) (2 * i + 2)
      (by rw [ho]; exact fun hq => hs1 hq.symm) with ⟨u, w, hmid, hr, hlt, _⟩
    rcases smaller_cases l i (2 * i + 1) with hq | hq
    · -- the inner comparison had kept the node itself
      rw [hq] at hmid
      rw [hss, ho]
      refine ⟨w, u, hmid, hr, hlt, Or.inr rfl, ?_, ?_⟩
      · intro w' hw'
        have hk := smaller_keep l i (2 * i + 1) hq (by omega) w' w hw' hmid
        exact le_trans hlt.le hk
      · intro w' hw'
        rw [hr] at hw'
        cases hw'
        exact le_refl _
    · -- the inner comparison had switched to the left child
      rcases smaller_ne l i (2 * i + 1) (by rw [hq]; omega) with ⟨u2, w2, hi, hc, hlt2, _⟩
      rw [hq] at hmid
      rw [hc] at hmid
      cases hmid
      rw [hss, ho]
      refine ⟨w2, u, hi, hr, hlt.trans hlt2, Or.inr rfl, ?_, ?_⟩
      · intro w' hw'
        rw [hc] at hw'
        cases hw'
        exact hlt.le
      · intro w' hw'
        rw [hr] at hw'
        cases hw'
        exact le_refl _

/-- When `_sift_down`'s comparisons keep the node, neither populated child is
strictly smaller than it. -/
theorem smallest_eq_spec (l : List T) (i : Nat) (h : smallest l i = i) :
    ∀ x, l[i]? = some x →
      (∀ w, l[2 * i + 1]? = some w → x ≤ w) ∧
      (∀ w, l[2 * i + 2]? = some w → x ≤ w) := by
  intro x hx
  have hss : smallest l i = smaller l (smaller l i (2 * i + 1)) (2 * i + 2) := rfl
  have hs1 : smaller l i (2 * i + 1) = i := by
    rcases smaller_cases l i (2 * i + 1) with hq | hq
    · exact hq
    · exfalso
      rcases smaller_cases l (smaller l i (2 * i + 1)) (2 * i + 2) with ho | ho
      · rw [hss, ho, hq] at h
        omega
      · rw [hss, ho] at h
        omega
  have ho : smaller l i (2 * i + 2) = i := by
    rw [hss, hs1] at h
    exact h
  constructor
  · intro w hw
    exact smaller_keep l i (2 * i + 1) hs1 (by omega) w x hw hx
  · intro w hw
    exact smaller_keep l i (2 * i + 2) ho (by omega) w x hw hx

/-- `sift_down` preserves the length of the array. -/
theorem sift_down_length (l : List T) (i : Nat) :
    (sift_down l i).length = l.length := by
  induction l, i using sift_down.induct with
  | case1 l i s hs => rw [sift_down_eq_self l i hs]
  | case2 l i s hs x y hx hy ih =>
    rw [sift_down_eq_step l i x y hs hx hy]
    rw [ih]
    simp
  | case3 l i s hs hcon =>
    exfalso
    rcases smallest_spec l i hs with ⟨x, y, hx, hy, _, _, _, _⟩
    exact hcon x y hx hy

/-- `sift_down` permutes the array. -/
theorem sift_down_perm (l : List T) (i : Nat) : (sift_down l i).Perm l := by
  induction l, i using sift_down.induct with
  | case1 l i s hs =>
    rw [sift_down_eq_self l i hs]
  | case2 l i s hs x y hx hy ih =>
    rw [sift_down_eq_step l i x y hs hx hy]
    exact ih.trans (set_set_perm l i (smallest l i) x y hx hy)
  | case3 l i s hs hcon =>
    exfalso
    rcases smallest_spec l i hs with ⟨x, y, hx, hy, _, _, _, _⟩
    exact hcon x y hx hy

/-- The subtree chosen by `_sift_down`'s first swap is inside the node's
subtree. -/
theorem isAnc_smallest (l : List T) (i : Nat) (hs : smallest l i ≠ i) :
    isAnc i (smallest l i) = true := by
  rcases smallest_spec l i hs with ⟨x, y, _, _, _, hch, _, _⟩
  rcases hch with h1 | h1 <;> rw [h1]
  · exact (isAnc_child (isAnc_self i)).1
  · exact (isAnc_child (isAnc_self i)).2

/-- `sift_down` only moves entries inside the subtree of the node it repairs. -/
theorem sift_down_outside (l : List T) (i j : Nat) :
    isAnc i j = false → (sift_down l i)[j]? = l[j]? := by
  induction l, i using sift_down.induct with
  | case1 l i s hs =>
    intro hj
    rw [sift_down_eq_self l i hs]
  | case2 l i s hs x y hx hy ih =>
    intro hj
    rw [sift_down_eq_step l i x y hs hx hy]
    have hanc_s : isAnc i (smallest l i) = true := isAnc_smallest l i hs
    have hji : j ≠ i := by
      intro he
      rw [he, isAnc_self] at hj
      cases hj
    have hjs : j ≠ smallest l i := by
      intro he
      rw [he, hanc_s] at hj
      cases hj
    have hanc2 : isAnc (smallest l i) j = false := by
      cases hq : isAnc (smallest l i) j
      · rfl
      · rw [isAnc_trans hanc_s j hq] at hj
        cases hj
    rw [ih hanc2]
    rw [List.getElem?_set_ne (Ne.symm hjs), List.getElem?_set_ne (Ne.symm hji)]
  | case3 l i s hs hcon =>
    intro hj
    exfalso
    rcases smallest_spec l i hs with ⟨x, y, hx, hy, _, _, _, _⟩
    exact hcon x y hx hy

/-- A lower bound on every entry of a subtree survives `sift_down`. -/
theorem sift_down_lowerBound (l : List T) (i : Nat) (b : T) :
    (∀ j w, isAnc i j = true → l[j]? = some w → b ≤ w) →
    ∀ j w, isAnc i j = true → (sift_down l i)[j]? = some w → b ≤ w := by
  induction l, i using sift_down.induct with
  | case1 l i s hs =>
    intro hb j w hj hw
    rw [sift_down_eq_self l i hs] at hw
    exact hb j w hj hw
  | case2 l i s hs x y hx hy ih =>
    intro hb j w hj hw
    rw [sift_down_eq_step l i x y hs hx hy] at hw
    have hanc_s : isAnc i (smallest l i) = true := isAnc_smallest l i hs
    have hsi : i < smallest l i := by
      have := isAnc_le hanc_s
      omega
    have hilen : i < l.length := (List.getElem?_eq_some_iff.mp hx).1
    have hslen : smallest l i < l.length := (List.getElem?_eq_some_iff.mp hy).1
    have hb' : ∀ j' w', isAnc (smallest l i) j' = true →
        ((l.set i y).set (smallest l i) x)[j']? = some w' → b ≤ w' := by
      intro j' w' hj' hw'
      by_cases hj's : j' = smallest l i
      · subst hj's
        have hx2 : ((l.set i y).set (smallest l i) x)[smallest l i]? = some x := by
          simp [List.getElem?_set, List.length_set, hslen]
        rw [hx2] at hw'
        cases hw'
        exact hb i x (isAnc_self i) hx
      · have hj'i : j' ≠ i := by
          have := isAnc_le hj'
          omega
        rw [List.getElem?_set_ne (Ne.symm hj's), List.getElem?_set_ne (Ne.symm hj'i)] at hw'
        exact hb j' w' (isAnc_trans hanc_s j' hj') hw'
    by_cases hjs : isAnc (smallest l i) j = true
    · exact ih hb' j w hjs hw
    · have hout : isAnc (smallest l i) j = false := by
        cases hq : isAnc (smallest l i) j
        · rfl
        · exact absurd hq hjs
      rw [sift_down_outside _ _ j hout] at hw
      by_cases hji : j = i
      · subst hji
        have hy2 : ((l.set j y).set (smallest l j) x)[j]? = some y := by
          rw [List.getElem?_set_ne (show smallest l j ≠ j from hs)]
          simp [List.getElem?_set, hilen]
        rw [hy2] at hw
        cases hw
        exact hb (smallest l j) y hanc_s hy
      · have hjs2 : j ≠ smallest l i := by
          intro he
          rw [he] at hjs
          exact hjs (isAnc_self _)
        rw [List.getElem?_set_ne (Ne.symm hjs2), List.getElem?_set_ne (Ne.symm hji)] at hw
        exact hb j w hj hw
  | case3 l i s hs hcon =>
    intro hb j w hj hw
    exfalso
    rcases smallest_spec l i hs with ⟨x, y, hx, hy, _, _, _, _⟩
    exact hcon x y hx hy

/-- Weakening: a repaired region only shrinks when its start grows. -/
theorem heapFrom_mono {l : List T} {a b : Nat} (h : HeapFrom l a) (hab : a ≤ b) :
    HeapFrom l b :=
  fun j x y hj hpar hx hy => h j x y hj (le_trans hab hpar) hx hy

/-- In a region whose edges are all ordered, the root of a subtree bounds every
entry of that subtree. -/
theorem root_dom (l : List T) (s : Nat) (hh : HeapFrom l s) :
    ∀ j, isAnc s j = true → ∀ ys x, l[s]? = some ys → l[j]? = some x → ys ≤ x := by
  intro j
  induction j using Nat.strong_induction_on with
  | _ j ih =>
    intro hj ys x hsv hx
    by_cases hjs : j = s
    · subst hjs
      rw [hsv] at hx
      cases hx
      exact le_refl _
    · have h0 : 0 < j := by
        have := isAnc_le hj
        omega
      have hp : isAnc s ((j - 1) / 2) = true := isAnc_parent hj hjs
      have hjlen : j < l.length := (List.getElem?_eq_some_iff.mp hx).1
      have hplen : (j - 1) / 2 < l.length := by omega
      obtain ⟨z, hz⟩ : ∃ z, l[(j - 1) / 2]? = some z :=
        ⟨_, List.getElem?_eq_getElem hplen⟩
      exact le_trans (ih ((j - 1) / 2) (by omega) hp ys z hsv hz)
        (hh j x z h0 (isAnc_le hp) hx hz)

/-- The main repair property of `_sift_down`: if every edge with parent index
above the node is ordered, then afterwards every edge with parent index at or
above the node is ordered. -/
theorem sift_down_heapFrom (l : List T) (i : Nat) :
    HeapFrom l (i + 1) → HeapFrom (sift_down l i) i := by
  induction l, i using sift_down.induct with
  | case1 l i s hs =>
    intro h
    rw [sift_down_eq_self l i hs]
    intro j x y hj hpar hx hy
    by_cases hq : i + 1 ≤ (j - 1) / 2
    · exact h j x y hj hq hx hy
    · have hpi : (j - 1) / 2 = i := by omega
      have hj2 : j = 2 * i + 1 ∨ j = 2 * i + 2 := by omega
      rw [hpi] at hy
      rcases smallest_eq_spec l i hs y hy with ⟨hl1, hl2⟩
      rcases hj2 with he | he <;> rw [he] at hx
      · exact hl1 x hx
      · exact hl2 x hx
  | case2 l i s hs x y hx hy ih =>
    intro h
    rw [sift_down_eq_step l i x y hs hx hy]
    rcases smallest_spec l i hs with ⟨x', y', hx', hy', hlt, hch, hlb1, hlb2⟩
    rw [hx] at hx'
    cases hx'
    rw [hy] at hy'
    cases hy'
    have hanc_s : isAnc i (smallest l i) = true := isAnc_smallest l i hs
    have hsi : i < smallest l i := by
      rcases hch with h1 | h1 <;> omega
    have hilen : i < l.length := (List.getElem?_eq_some_iff.mp hx).1
    have hslen : smallest l i < l.length := (List.getElem?_eq_some_iff.mp hy).1
    have hA : HeapFrom ((l.set i y).set (smallest l i) x) (smallest l i + 1) := by
      intro j u v hj hpar hu hv
      have hjq : 2 * (smallest l i) + 3 ≤ j := by omega
      have hqne_i : (j - 1) / 2 ≠ i := by omega
      have hqne_s : (j - 1) / 2 ≠ smallest l i := by omega
      have hjne_i : j ≠ i := by omega
      have hjne_s : j ≠ smallest l i := by omega
      rw [List.getElem?_set_ne (Ne.symm hjne_s), List.getElem?_set_ne (Ne.symm hjne_i)] at hu
      rw [List.getElem?_set_ne (Ne.symm hqne_s), List.getElem?_set_ne (Ne.symm hqne_i)] at hv
      exact h j u v hj (by omega) hu hv
    have hIH := ih hA
    intro j u v hj hpar hu hv
    by_cases hqs : smallest l i ≤ (j - 1) / 2
    · exact hIH j u v hj hqs hu hv
    · have hRi : (sift_down ((l.set i y).set (smallest l i) x) (smallest l i))[i]? = some y := by
        rw [sift_down_outside _ _ i (isAnc_eq_false_of_lt hsi)]
        rw [List.getElem?_set_ne (show smallest l i ≠ i from hs)]
        simp [List.getElem?_set, hilen]
      by_cases hqi : (j - 1) / 2 = i
      · have hj2 : j = 2 * i + 1 ∨ j = 2 * i + 2 := by omega
        rw [hqi, hRi] at hv
        cases hv
        by_cases hjs : j = smallest l i
        · have hbd : ∀ a w', isAnc (smallest l i) a = true →
              ((l.set i y).set (smallest l i) x)[a]? = some w' → y ≤ w' := by
            intro a w' ha hw'
            by_cases has : a = smallest l i
            · subst has
              have hx2 : ((l.set i y).set (smallest l i) x)[smallest l i]? = some x := by
                simp [List.getElem?_set, List.length_set, hslen]
              rw [hx2] at hw'
              cases hw'
              exact hlt.le
            · have hai : a ≠ i := by
                have := isAnc_le ha
                omega
              rw [List.getElem?_set_ne (Ne.symm has), List.getElem?_set_ne (Ne.symm hai)] at hw'
              exact root_dom l (smallest l i) (heapFrom_mono h (by omega)) a ha y w' hy hw'
          have hanc_j : isAnc (smallest l i) j = true := by
            rw [hjs]
            exact isAnc_self _
          exact sift_down_lowerBound _ _ y hbd j u hanc_j hu
        · have hanc_o : isAnc (smallest l i) j = false := by
            rcases hch with h1 | h1 <;> rcases hj2 with h2 | h2
            · exact absurd (h2.trans h1.symm) hjs
            · rw [h1, h2]
              rw [isAnc.eq_def, if_neg (by omega)]
              have he : (2 * i + 2 - 1) / 2 = i := by omega
              rw [he]
              exact isAnc_eq_false_of_lt (by omega)
            · rw [h1, h2]
              exact isAnc_eq_false_of_lt (by omega)
            · exact absurd (h2.trans h1.symm) hjs
          have hjne_i : j ≠ i := by omega
          rw [sift_down_outside _ _ j hanc_o] at hu
          rw [List.getElem?_set_ne (Ne.symm hjs), List.getElem?_set_ne (Ne.symm hjne_i)] at hu
          rcases hj2 with h2 | h2 <;> rw [h2] at hu
          · exact hlb1 u hu
          · exact hlb2 u hu
      · have hq_gt : i < (j - 1) / 2 := by omega
        have hq_lt : (j - 1) / 2 < smallest l i := by omega
        have hanc_q : isAnc (smallest l i) ((j - 1) / 2) = false :=
          isAnc_eq_false_of_lt hq_lt
        have hjne_s : j ≠ smallest l i := by
          intro he
          rcases hch with h1 | h1 <;> rw [h1] at he <;> omega
        have hanc_j : isAnc (smallest l i) j = false := by
          cases hq2 : isAnc (smallest l i) j
          · rfl
          · exfalso
            have := isAnc_parent hq2 hjne_s
            rw [hanc_q] at this
            cases this
        have hjne_i : j ≠ i := by omega
        have hqne_s : (j - 1) / 2 ≠ smallest l i := by omega
        have hqne_i : (j - 1) / 2 ≠ i := hqi
        rw [sift_down_outside _ _ j hanc_j,
          List.getElem?_set_ne (Ne.symm hjne_s), List.getElem?_set_ne (Ne.symm hjne_i)] at hu
        rw [sift_down_outside _ _ _ hanc_q,
          List.getElem?_set_ne (Ne.symm hqne_s), List.getElem?_set_ne (Ne.symm hqne_i)] at hv
        exact h j u v hj (by omega) hu hv
  | case3 l i s hs hcon =>
    intro h
    exfalso
    rcases smallest_spec l i hs with ⟨x, y, hx, hy, _, _, _, _⟩
    exact hcon x y hx hy

/-- Unfolding `sift_up` at the root. -/
theorem sift_up_eq_zero (l : List T) : sift_up l 0 = l := by
  rw [sift_up.eq_def]
  simp

/-- Unfolding `sift_up` when the parent is already not larger. -/
theorem sift_up_eq_stop (l : List T) (j : Nat) (a b : T) (hj : j ≠ 0)
    (ha : l[(j - 1) / 2]? = some a) (hb : l[j]? = some b) (hab : a ≤ b) :
    sift_up l j = l := by
  rw [sift_up.eq_def, dif_neg hj]
  split
  next u w hu hw =>
    rw [ha] at hu
    rw [hb] at hw
    cases hu
    cases hw
    rw [if_pos hab]
  next hcon => rfl

/-- Unfolding `sift_up` when the parent is strictly larger: swap and recurse. -/
theorem sift_up_eq_swap (l : List T) (j : Nat) (a b : T) (hj : j ≠ 0)
    (ha : l[(j - 1) / 2]? = some a) (hb : l[j]? = some b) (hab : ¬ a ≤ b) :
    sift_up l j = sift_up ((l.set ((j - 1) / 2) b).set j a) ((j - 1) / 2) := by
  rw [sift_up.eq_def, dif_neg hj]
  split
  next u w hu hw =>
    rw [ha] at hu
    rw [hb] at hw
    cases hu
    cases hw
    rw [if_neg hab]
  next hcon => exact (hcon a b ha hb).elim

/-- Unfolding `sift_up` when a compared slot is missing. -/
theorem sift_up_eq_degen (l : List T) (j : Nat) (hj : j ≠ 0)
    (hcon : ∀ a b : T, l[(j - 1) / 2]? = some a → l[j]? = some b → False) :
    sift_up l j = l := by
  rw [sift_up.eq_def, dif_neg hj]
  split
  next u w hu hw => exact (hcon u w hu hw).elim
  next => rfl

/-- `sift_up` preserves the length of the array. -/
theorem sift_up_length (l : List T) (j : Nat) : (sift_up l j).length = l.length := by
  induction l, j using sift_up.induct with
  | case1 l => rw [sift_up_eq_zero]
  | case2 l j hj x y hy hx hab => rw [sift_up_eq_stop l j x y hj hx hy hab]
  | case3 l j hj x y hy hx hab ih =>
    rw [sift_up_eq_swap l j x y hj hx hy hab, ih]
    simp
  | case4 l j hj hcon => rw [sift_up_eq_degen l j hj hcon]

/-- `sift_up` permutes the array. -/
theorem sift_up_perm (l : List T) (j : Nat) : (sift_up l j).Perm l := by
  induction l, j using sift_up.induct with
  | case1 l => rw [sift_up_eq_zero]
  | case2 l j hj x y hy hx hab => rw [sift_up_eq_stop l j x y hj hx hy hab]
  | case3 l j hj x y hy hx hab ih =>
    rw [sift_up_eq_swap l j x y hj hx hy hab]
    exact ih.trans (set_set_perm l ((j - 1) / 2) j x y hx hy)
  | case4 l j hj hcon => rw [sift_up_eq_degen l j hj hcon]

/-- The repair property of `_sift_up`: if every edge except the one into the
bubbling node is ordered, and the node's children are at least its parent,
then sifting up restores the full heap invariant. -/
theorem sift_up_heap (l : List T) (k : Nat) :
    (∀ j x y, 0 < j → j ≠ k → l[j]? = some x → l[(j - 1) / 2]? = some y → y ≤ x) →
    (∀ c w g, 0 < k → (c - 1) / 2 = k → l[c]? = some w →
      l[(k - 1) / 2]? = some g → g ≤ w) →
    IsHeap (sift_up l k) := by
  induction l, k using sift_up.induct with
  | case1 l =>
    intro h1 h2
    rw [sift_up_eq_zero]
    intro j x y hj hpar hx hy
    exact h1 j x y hj (by omega) hx hy
  | case2 l k hk a b hb ha hab =>
    intro h1 h2
    rw [sift_up_eq_stop l k a b hk ha hb hab]
    intro j x y hj hpar hx hy
    by_cases hjk : j = k
    · subst hjk
      rw [hb] at hx
      cases hx
      rw [ha] at hy
      cases hy
      exact hab
    · exact h1 j x y hj hjk hx hy
  | case3 l k hk a b hb ha hab ih =>
    intro h1 h2
    rw [sift_up_eq_swap l k a b hk ha hb hab]
    have hba : b < a := lt_of_not_le hab
    have hplen : (k - 1) / 2 < l.length := (List.getElem?_eq_some_iff.mp ha).1
    have hklen : k < l.length := (List.getElem?_eq_some_iff.mp hb).1
    have hpk : (k - 1) / 2 < k := by omega
    have hval_p : ((l.set ((k - 1) / 2) b).set k a)[(k - 1) / 2]? = some b := by
      rw [List.getElem?_set_ne (show k ≠ (k - 1) / 2 by omega)]
      simp [List.getElem?_set, hplen]
    have hval_k : ((l.set ((k - 1) / 2) b).set k a)[k]? = some a := by
      simp [List.getElem?_set, List.length_set, hklen]
    have hval_other : ∀ m, m ≠ (k - 1) / 2 → m ≠ k →
        ((l.set ((k - 1) / 2) b).set k a)[m]? = l[m]? := by
      intro m hmp hmk
      rw [List.getElem?_set_ne (Ne.symm hmk), List.getElem?_set_ne (Ne.symm hmp)]
    apply ih
    · intro j x y hj hjp hx hy
      by_cases hjk : j = k
      · subst hjk
        rw [hval_k] at hx
        cases hx
        rw [hval_p] at hy
        cases hy
        exact hba.le
      · by_cases hparp : (j - 1) / 2 = (k - 1) / 2
        · rw [hparp, hval_p] at hy
          cases hy
          rw [hval_other j (by omega) hjk] at hx
          have := h1 j x a hj hjk hx (by rw [hparp]; exact ha)
          exact le_trans hba.le this
        · by_cases hpark : (j - 1) / 2 = k
          · rw [hpark, hval_k] at hy
            cases hy
            rw [hval_other j (by omega) hjk] at hx
            exact h2 j x a (by omega) hpark hx ha
          · rw [hval_other j (by omega) hjk] at hx
            rw [hval_other _ hparp hpark] at hy
            exact h1 j x y hj hjk hx hy
    · intro c w g hp hc hw hg
      have hgp_ne_p : (((k - 1) / 2) - 1) / 2 ≠ (k - 1) / 2 := by omega
      have hgp_ne_k : (((k - 1) / 2) - 1) / 2 ≠ k := by omega
      rw [hval_other _ hgp_ne_p hgp_ne_k] at hg
      have hga : g ≤ a := h1 ((k - 1) / 2) a g (by omega) (by omega) ha hg
      by_cases hck : c = k
      · subst hck
        rw [hval_k] at hw
        cases hw
        exact hga
      · have hcp : c ≠ (k - 1) / 2 := by omega
        rw [hval_other c hcp hck] at hw
        exact le_trans hga (h1 c w a (by omega) hck hw (by rw [hc]; exact ha))
  | case4 l k hk hcon =>
    intro h1 h2
    rw [sift_up_eq_degen l k hk hcon]
    intro j x y hj hpar hx hy
    by_cases hjk : j = k
    · subst hjk
      exact (hcon y x hy hx).elim
    · exact h1 j x y hj hjk hx hy

/-- The prefix before the last element, with the last element re-appended,
is the whole list. -/
theorem dropLast_append_getLastD {A : Type} (r : A) (t : List A) (d : A) :
    (r :: t).dropLast ++ [(r :: t).getLastD d] = r :: t := by
  induction t generalizing r d with
  | nil => simp
  | cons s t' ih =>
    rw [List.getLastD_cons]
    have h0 : (r :: s :: t').dropLast = r :: (s :: t').dropLast := by simp
    rw [h0]
    have := ih s r
    rw [List.getLastD_cons] at this ⊢
    simpa using this

/-- `push` appends the element, up to permutation. -/
theorem push_perm (l : List T) (x : T) : (push l x).Perm (x :: l) := by
  unfold push
  exact (sift_up_perm _ _).trans (List.perm_append_singleton x l)

/-- `push` preserves the heap invariant. -/
theorem push_heap (l : List T) (x : T) (hh : IsHeap l) : IsHeap (push l x) := by
  unfold push
  apply sift_up_heap
  · intro j u v hj hjk hu hv
    by_cases hlt : j < l.length
    · rw [List.getElem?_append_left hlt] at hu
      rw [List.getElem?_append_left (by omega)] at hv
      exact hh j u v hj (by omega) hu hv
    · rw [List.getElem?_eq_none (by simp; omega)] at hu
      cases hu
  · intro c w g hk hc hw hg
    rw [List.getElem?_eq_none (by simp; omega)] at hw
    cases hw

/-- `pop` on a heap of at least two elements. -/
theorem pop_cons_cons (a r : T) (t : List T) :
    pop (a :: r :: t) =
      Except.ok (a, sift_down (((r :: t).getLastD a) :: (r :: t).dropLast) 0) := by
  rfl

/-- `pop` never fails on a non-empty heap. -/
theorem pop_isOk (l : List T) (hne : l ≠ []) :
    ∃ x l', pop l = Except.ok (x, l') := by
  cases l with
  | nil => exact absurd rfl hne
  | cons a rest =>
    cases rest with
    | nil => exact ⟨a, [], rfl⟩
    | cons r t => exact ⟨_, _, pop_cons_cons a r t⟩

/-- `pop` returns the root. -/
theorem pop_root (l : List T) (x : T) (l' : List T) (h : pop l = Except.ok (x, l')) :
    l[0]? = some x := by
  cases l with
  | nil => cases h
  | cons a rest =>
    cases rest with
    | nil =>
      cases h
      rfl
    | cons r t =>
      rw [pop_cons_cons] at h
      cases h
      rfl

/-- `pop` removes exactly one element. -/
theorem pop_length (l : List T) (x : T) (l' : List T)
    (h : pop l = Except.ok (x, l')) : l'.length + 1 = l.length := by
  cases l with
  | nil => cases h
  | cons a rest =>
    cases rest with
    | nil =>
      cases h
      rfl
    | cons r t =>
      rw [pop_cons_cons] at h
      cases h
      rw [sift_down_length]
      simp

/-- The popped root together with the remaining heap permutes the input. -/
theorem pop_perm (l : List T) (x : T) (l' : List T)
    (h : pop l = Except.ok (x, l')) : (x :: l').Perm l := by
  cases l with
  | nil => cases h
  | cons a rest =>
    cases rest with
    | nil =>
      cases h
      exact List.Perm.refl _
    | cons r t =>
      rw [pop_cons_cons] at h
      cases h
      refine List.Perm.cons x ?_
      refine ((sift_down_perm _ _).trans ?_)
      have h1 : ((r :: t).getLastD x :: (r :: t).dropLast).Perm
          ((r :: t).dropLast ++ [(r :: t).getLastD x]) :=
        (List.perm_append_singleton _ _).symm
      have h2 : (r :: t).dropLast ++ [(r :: t).getLastD x] = r :: t :=
        dropLast_append_getLastD r t x
      rw [h2] at h1
      exact h1

/-- `pop` preserves the heap invariant. -/
theorem pop_heap (l : List T) (x : T) (l' : List T) (hh : IsHeap l)
    (h : pop l = Except.ok (x, l')) : IsHeap l' := by
  cases l with
  | nil => cases h
  | cons a rest =>
    cases rest with
    | nil =>
      cases h
      intro j u v hj hpar hu hv
      simp at hu
    | cons r t =>
      rw [pop_cons_cons] at h
      cases h
      apply sift_down_heapFrom
      intro j u v hj hpar hu hv
      have hju : 0 < j := by omega
      have hq : 0 < (j - 1) / 2 := by omega
      have hval : ∀ m w, 0 < m →
          (((r :: t).getLastD x) :: (r :: t).dropLast)[m]? = some w →
          (x :: r :: t)[m]? = some w := by
        intro m w hm hmw
        cases m with
        | zero => omega
        | succ m' =>
          rw [List.getElem?_cons_succ] at hmw
          rw [List.getElem?_dropLast] at hmw
          rw [List.getElem?_cons_succ]
          by_cases hin : m' < (r :: t).length - 1
          · rw [if_pos hin] at hmw
            exact hmw
          · rw [if_neg hin] at hmw
            cases hmw
      have hu' := hval j u hju hu
      have hv' := hval ((j - 1) / 2) v hq hv
      exact hh j u v hj (by omega) hu' hv'

/-- A heap's root is a lower bound for all its entries. -/
theorem heap_root_le (l : List T) (hh : IsHeap l) (x : T) (hx : l[0]? = some x) :
    ∀ b ∈ l, x ≤ b := by
  intro b hb
  rcases List.mem_iff_getElem?.mp hb with ⟨j, hj⟩
  exact root_dom l 0 hh j (isAnc_zero j) x b hx hj

/-- The heapify loop permutes the array. -/
theorem heapifyLoop_perm (i : Nat) (l : List T) : (heapifyLoop l i).Perm l := by
  induction i generalizing l with
  | zero => exact List.Perm.refl l
  | succ i ih =>
    show (heapifyLoop (sift_down l i) i).Perm l
    exact (ih (sift_down l i)).trans (sift_down_perm l i)

/-- The heapify loop turns a partially repaired array into a heap. -/
theorem heapifyLoop_heap (i : Nat) (l : List T) (h : HeapFrom l i) :
    IsHeap (heapifyLoop l i) := by
  induction i generalizing l with
  | zero => exact h
  | succ i ih =>
    show IsHeap (heapifyLoop (sift_down l i) i)
    exact ih (sift_down l i) (sift_down_heapFrom l i h)

/-- `heapify` establishes the heap invariant. -/
theorem heapify_heap (l : List T) : IsHeap (heapify l) := by
  apply heapifyLoop_heap
  intro j x y hj hpar hx hy
  have hjl : j < l.length := (List.getElem?_eq_some_iff.mp hx).1
  omega

/-- `heapify` permutes the array. -/
theorem heapify_perm (l : List T) : (heapify l).Perm l :=
  heapifyLoop_perm _ l

/-- The fuel argument of `popAllFuel` is irrelevant once it covers the
length. -/
theorem popAllFuel_congr (n : Nat) : ∀ (m : Nat) (l : List T),
    l.length ≤ n → l.length ≤ m → popAllFuel n l = popAllFuel m l := by
  induction n with
  | zero =>
    intro m l hn hm
    have : l = [] := List.eq_nil_of_length_eq_zero (by omega)
    subst this
    cases m with
    | zero => rfl
    | succ m' => rfl
  | succ n ih =>
    intro m l hn hm
    cases l with
    | nil =>
      cases m with
      | zero => rfl
      | succ m' => rfl
    | cons a rest =>
      cases m with
      | zero => simp at hm
      | succ m' =>
        rcases pop_isOk (a :: rest) (by simp) with ⟨x, l', h⟩
        show (match pop (a :: rest) with
          | Except.error _ => []
          | Except.ok (x, l') => x :: popAllFuel n l') =
          (match pop (a :: rest) with
          | Except.error _ => []
          | Except.ok (x, l') => x :: popAllFuel m' l')
        rw [h]
        have hlen := pop_length _ _ _ h
        simp only []
        rw [ih m' l' (by simp at hn hlen ⊢; omega) (by simp at hm hlen ⊢; omega)]

/-- One step of `popAll`. -/
theorem popAll_step (l : List T) (x : T) (l' : List T)
    (h : pop l = Except.ok (x, l')) : popAll l = x :: popAll l' := by
  cases l with
  | nil => cases h
  | cons a rest =>
    have hlen := pop_length _ _ _ h
    show popAllFuel (rest.length + 1) (a :: rest) = x :: popAll l'
    show (match pop (a :: rest) with
      | Except.error _ => []
      | Except.ok (x, l') => x :: popAllFuel rest.length l') = x :: popAll l'
    rw [h]
    simp only []
    rw [popAllFuel_congr rest.length l'.length l' (by simp at hlen; omega) (le_refl _)]
    rfl

/-- `popAll` pops every element exactly once. -/
theorem popAll_perm (l : List T) : (popAll l).Perm l := by
  generalize hn : l.length = n
  induction n using Nat.strong_induction_on generalizing l with
  | _ n ih =>
    cases l with
    | nil => exact List.Perm.refl _
    | cons a rest =>
      rcases pop_isOk (a :: rest) (by simp) with ⟨x, l', h⟩
      rw [popAll_step _ _ _ h]
      have hlen := pop_length _ _ _ h
      have hrec : (popAll l').Perm l' :=
        ih l'.length (by omega) l' rfl
      exact (hrec.cons x).trans (pop_perm _ _ _ h)

/-- On a heap, `popAll` yields a non-decreasing sequence. -/
theorem popAll_sorted (l : List T) (hh : IsHeap l) :
    List.Sorted (· ≤ ·) (popAll l) := by
  generalize hn : l.length = n
  induction n using Nat.strong_induction_on generalizing l with
  | _ n ih =>
    cases l with
    | nil => exact List.sorted_nil
    | cons a rest =>
      rcases pop_isOk (a :: rest) (by simp) with ⟨x, l', h⟩
      rw [popAll_step _ _ _ h]
      have hlen := pop_length _ _ _ h
      rw [List.sorted_cons]
      constructor
      · intro b hb
        have hb' : b ∈ l' := (popAll_perm l').mem_iff.mp hb
        have hbl : b ∈ (a :: rest) := (pop_perm _ _ _ h).mem_iff.mp (by simp [hb'])
        exact heap_root_le _ hh x (pop_root _ _ _ h) b hbl
      · exact ih l'.length (by omega) l' (pop_heap _ _ _ hh h) rfl

/-- Pushing a list of elements onto a heap keeps the heap invariant. -/
theorem foldl_push_heap (xs : List T) (l : List T) (hh : IsHeap l) :
    IsHeap (xs.foldl push l) := by
  induction xs generalizing l with
  | nil => exact hh
  | cons x xs ih => exact ih (push l x) (push_heap l x hh)

/-- Pushing a list of elements onto a heap appends them, up to permutation. -/
theorem foldl_push_perm (xs : List T) (l : List T) :
    (xs.foldl push l).Perm (xs ++ l) := by
  induction xs generalizing l with
  | nil => exact List.Perm.refl _
  | cons x xs ih =>
    show (xs.foldl push (push l x)).Perm (x :: xs ++ l)
    refine (ih (push l x)).trans ?_
    refine (List.Perm.append_left xs (push_perm l x)).trans ?_
    exact List.perm_middle

/-- A heap is untouched by a sift-down from any node. -/
theorem sift_down_of_isHeap (l : List T) (hh : IsHeap l) (i : Nat) :
    sift_down l i = l := by
  by_cases hs : smallest l i = i
  · exact sift_down_eq_self l i hs
  · exfalso
    rcases smallest_spec l i hs with ⟨x, y, hx, hy, hlt, hch, _, _⟩
    have hpar : (smallest l i - 1) / 2 = i := by rcases hch with h1 | h1 <;> omega
    have := hh (smallest l i) y x (by rcases hch with h1 | h1 <;> omega)
      (by omega) hy (by rw [hpar]; exact hx)
    exact absurd hlt (not_lt_of_le this)

/-- The executable heap check agrees with the `HeapFrom` predicate. -/
theorem heapFromB_iff (l : List T) (s : Nat) :
    heapFromB l s = true ↔ HeapFrom l s := by
  unfold heapFromB HeapFrom
  rw [List.all_eq_true]
  constructor
  · intro hall j x y hj hpar hx hy
    have hjl : j < l.length := (List.getElem?_eq_some_iff.mp hx).1
    have hthis := hall j (List.mem_range.mpr hjl)
    rw [if_pos ⟨hj, hpar⟩] at hthis
    rw [hx, hy] at hthis
    exact of_decide_eq_true hthis
  · intro hp j hjmem
    by_cases hc : 0 < j ∧ s ≤ (j - 1) / 2
    · rw [if_pos hc]
      cases hx : l[j]? with
      | none => rfl
      | some x =>
        cases hy : l[(j - 1) / 2]? with
        | none => rfl
        | some y => exact decide_eq_true (hp j x y hc.1 hc.2 hx hy)
    · rw [if_neg hc]

end MinHeap

/-- C6: for every finite sequence of totally ordered elements pushed onto an
initially empty MinHeap, popping repeatedly until the heap is empty yields
exactly those elements (a permutation of the pushed sequence) in
non-decreasing order. -/
theorem C6_pushes_then_pops_sorted {T : Type} [LinearOrder T] (xs : List T) :
    List.Sorted (· ≤ ·) (MinHeap.popAll (xs.foldl MinHeap.push [])) ∧
    (MinHeap.popAll (xs.foldl MinHeap.push [])).Perm xs := by
  have hnil : MinHeap.IsHeap ([] : List T) := by
    intro j x y hj hpar hx hy
    simp at hx
  have hheap : MinHeap.IsHeap (xs.foldl MinHeap.push []) :=
    MinHeap.foldl_push_heap xs [] hnil
  constructor
  · exact MinHeap.popAll_sorted _ hheap
  · refine (MinHeap.popAll_perm _).trans ?_
    simpa using MinHeap.foldl_push_perm xs []

/-- C7: bulk `heapify` of an array and sequential pushes of the same elements
in any order produce heaps whose full pop sequences are identical. -/
theorem C7_heapify_matches_pushes {T : Type} [LinearOrder T] (xs ys : List T)
    (hperm : xs.Perm ys) :
    MinHeap.popAll (MinHeap.heapify xs) =
    MinHeap.popAll (ys.foldl MinHeap.push []) := by
  have hnil : MinHeap.IsHeap ([] : List T) := by
    intro j x y hj hpar hx hy
    simp at hx
  have hp : (MinHeap.popAll (MinHeap.heapify xs)).Perm
      (MinHeap.popAll (ys.foldl MinHeap.push [])) := by
    refine (MinHeap.popAll_perm _).trans ?_
    refine (MinHeap.heapify_perm xs).trans ?_
    refine hperm.trans ?_
    exact ((MinHeap.popAll_perm _).trans
      (by simpa using MinHeap.foldl_push_perm ys [])).symm
  have hs1 : List.Sorted (· ≤ ·) (MinHeap.popAll (MinHeap.heapify xs)) :=
    MinHeap.popAll_sorted _ (MinHeap.heapify_heap xs)
  have hs2 : List.Sorted (· ≤ ·) (MinHeap.popAll (ys.foldl MinHeap.push [])) :=
    MinHeap.popAll_sorted _ (MinHeap.foldl_push_heap ys [] hnil)
  exact List.eq_of_perm_of_sorted hp hs1 hs2

/-- Witness for C7 at a concrete input: the spec's example array `[5, 2, 9, 1]`
heapified versus its elements pushed in a different order. -/
theorem C7_witness :
    MinHeap.popAll (MinHeap.heapify ([5, 2, 9, 1] : List Nat)) =
    MinHeap.popAll (([1, 9, 2, 5] : List Nat).foldl MinHeap.push []) :=
  C7_heapify_matches_pushes [5, 2, 9, 1] [1, 9, 2, 5] (by decide)

/-- C8: on a non-empty heap, `pushpop(x)` swaps `x` into the root and sifts
down exactly when `x` is not smaller than the root, returning the old root;
otherwise it returns `x` unchanged without modifying the heap. -/
theorem C8_pushpop_spec {T : Type} [LinearOrder T] (l : List T) (x : T)
    (hne : l ≠ []) (hh : MinHeap.IsHeap l) :
    MinHeap.pushpop l x =
      if l.head hne ≤ x then (l.head hne, MinHeap.sift_down (l.set 0 x) 0)
      else (x, l) := by
  cases l with
  | nil => exact absurd rfl hne
  | cons r rest =>
    simp only [List.head_cons]
    by_cases hrx : r < x
    · rw [if_pos (le_of_lt hrx)]
      show (if r < x then (r, MinHeap.sift_down ((r :: rest).set 0 x) 0)
        else (x, r :: rest)) = _
      rw [if_pos hrx]
    · by_cases hxr : r ≤ x
      · have heq : r = x := le_antisymm hxr (le_of_not_lt hrx)
        rw [if_pos hxr]
        show (if r < x then (r, MinHeap.sift_down ((r :: rest).set 0 x) 0)
          else (x, r :: rest)) = _
        rw [if_neg hrx]
        subst heq
        have h0 : (r :: rest).set 0 r = r :: rest := rfl
        rw [h0, MinHeap.sift_down_of_isHeap _ hh 0]
      · rw [if_neg hxr]
        show (if r < x then (r, MinHeap.sift_down ((r :: rest).set 0 x) 0)
          else (x, r :: rest)) = _
        rw [if_neg hrx]

/-- Witness for C8 at a concrete input: pushing 5 through the heap
`[1, 2, 3]`. -/
theorem C8_witness :
    ((([1, 2, 3] : List Nat) ≠ [] ∧ MinHeap.IsHeap ([1, 2, 3] : List Nat)) ∧
      MinHeap.pushpop ([1, 2, 3] : List Nat) 5 =
        (1, MinHeap.sift_down (([1, 2, 3] : List Nat).set 0 5) 0)) := by
  have hne : ([1, 2, 3] : List Nat) ≠ [] := by decide
  have hh : MinHeap.IsHeap ([1, 2, 3] : List Nat) :=
    (MinHeap.heapFromB_iff _ _).mp (by decide)
  refine ⟨⟨hne, hh⟩, ?_⟩
  rw [C8_pushpop_spec ([1, 2, 3] : List Nat) 5 hne hh]
  have h1 : ([1, 2, 3] : List Nat).head hne = 1 := rfl
  rw [h1, if_pos (by decide : (1 : Nat) ≤ 5)]

/-- C10: on an empty MinHeap the fused operations differ: `replace` fails with
the empty-container error leaving the heap empty, while `pushpop` never
fails — it returns the item unchanged and leaves the heap empty. -/
theorem C10_replace_vs_pushpop_on_empty {T : Type} [LinearOrder T] (x : T) :
    MinHeap.replace ([] : List T) x =
      Except.error (PyErr.indexError "replace on empty heap") ∧
    MinHeap.pushpop ([] : List T) x = (x, []) :=
  ⟨rfl, rfl⟩

namespace CustomList

/-- The shift loop preserves the buffer length. -/
theorem shiftStep_length {A : Type} (l : List A) :
    (shiftStep l).length = l.length := by
  induction l with
  | nil => rfl
  | cons a t ih =>
    cases t with
    | nil => rfl
    | cons b t' =>
      show (b :: shiftStep (b :: t')).length = (a :: b :: t').length
      simp only [List.length_cons, ih]

/-- Dropping the stale last slot of a shifted buffer leaves the tail. -/
theorem shiftStep_dropLast {A : Type} (l : List A) :
    (shiftStep l).dropLast = l.tail := by
  induction l with
  | nil => rfl
  | cons a t ih =>
    cases t with
    | nil => rfl
    | cons b t' =>
      show (b :: shiftStep (b :: t')).dropLast = b :: t'
      cases hS : shiftStep (b :: t') with
      | nil =>
        have := shiftStep_length (b :: t')
        rw [hS] at this
        simp at this
      | cons s0 S' =>
        have h1 : (b :: s0 :: S').dropLast = b :: (s0 :: S').dropLast := by simp
        rw [h1, ← hS, ih]
        rfl

/-- The shift-then-truncate of `pop` removes exactly the element at `i`. -/
theorem shiftLeft_dropLast {A : Type} (l : List A) (i : Nat) (h : i < l.length) :
    (shiftLeft l i).dropLast = l.eraseIdx i := by
  unfold shiftLeft
  have hsne : shiftStep (l.drop i) ≠ [] := by
    intro hs
    have hlen := shiftStep_length (l.drop i)
    rw [hs] at hlen
    simp only [List.length_nil, List.length_drop] at hlen
    omega
  rw [List.dropLast_append]
  rw [if_neg (by simpa [List.isEmpty_iff] using hsne)]
  rw [shiftStep_dropLast, List.tail_drop, List.eraseIdx_eq_take_drop_succ]

/-- `_normalize_index`, written as a single range test on the adjusted index. -/
theorem normalize_index_eq (idx : Int) (size : Nat) :
    normalize_index idx size =
      (if 0 ≤ (if idx < 0 then idx + size else idx) ∧
          (if idx < 0 then idx + size else idx) < size then
        Except.ok (if idx < 0 then idx + (size : Int) else idx).toNat
      else Except.error (PyErr.indexError "list index out of range")) := by
  unfold normalize_index
  by_cases hneg : idx < 0
  · simp only [if_pos hneg]
    by_cases hr : 0 ≤ idx + (size : Int) ∧ idx + (size : Int) < size
    · rw [if_pos hr, if_neg (by omega)]
    · rw [if_neg hr, if_pos (by omega)]
  · simp only [if_neg hneg]
    by_cases hr : 0 ≤ idx ∧ idx < (size : Int)
    · rw [if_pos hr, if_neg (by omega)]
    · rw [if_neg hr, if_pos (by omega)]

end CustomList

/-- C9: `CustomList.pop` fails with the empty-container error on size 0, fails
with the out-of-range error when the normalized index (negative indices get
the size added) falls outside `[0, size)`, and otherwise removes and returns
the element at the normalized index, shifting the trailing elements left by
one — i.e. it agrees with `popSpec`, the specification's description, on
every list and index. -/
theorem C9_pop_matches_spec {A : Type} (l : List A) (idx : Int) :
    CustomList.pop l idx = CustomList.popSpec l idx := by
  unfold CustomList.pop CustomList.popSpec
  by_cases h0 : l.length = 0
  · rw [if_pos h0, if_pos h0]
  · rw [if_neg h0, if_neg h0, CustomList.normalize_index_eq]
    by_cases hneg : idx < 0
    · simp only [if_pos hneg]
      by_cases hr : 0 ≤ idx + (l.length : Int) ∧ idx + (l.length : Int) < l.length
      · rw [if_pos hr, dif_pos hr]
        have hlt : (idx + (l.length : Int)).toNat < l.length := by omega
        show (match l[(idx + (l.length : Int)).toNat]? with
          | some v => Except.ok (v,
              (CustomList.shiftLeft l (idx + (l.length : Int)).toNat).dropLast)
          | Option.none => Except.error (PyErr.indexError "pop from empty list")) = _
        rw [List.getElem?_eq_getElem hlt]
        show Except.ok (l[(idx + (l.length : Int)).toNat],
            (CustomList.shiftLeft l (idx + (l.length : Int)).toNat).dropLast) = _
        rw [CustomList.shiftLeft_dropLast l _ hlt, List.get_eq_getElem]
      · rw [if_neg hr, dif_neg hr]
    · simp only [if_neg hneg]
      by_cases hr : 0 ≤ idx ∧ idx < (l.length : Int)
      · rw [if_pos hr, dif_pos hr]
        have hlt : idx.toNat < l.length := by omega
        show (match l[idx.toNat]? with
          | some v => Except.ok (v, (CustomList.shiftLeft l idx.toNat).dropLast)
          | Option.none => Except.error (PyErr.indexError "pop from empty list")) = _
        rw [List.getElem?_eq_getElem hlt]
        show Except.ok (l[idx.toNat], (CustomList.shiftLeft l idx.toNat).dropLast) = _
        rw [CustomList.shiftLeft_dropLast l _ hlt, List.get_eq_getElem]
      · rw [if_neg hr, dif_neg hr]

section ChainLemmas

variable {K V : Type} [DecidableEq K]

/-- A key is absent exactly when `lookupKey` yields `none`. -/
theorem lookupKey_eq_none_iff (k : K) (l : Chain K V) :
    lookupKey k l = Option.none ↔ k ∉ l.map Prod.fst := by
  induction l with
  | nil => simp [lookupKey]
  | cons a t ih =>
    by_cases hk : a.1 = k
    · simp [lookupKey, hk]
    · simp only [lookupKey, if_neg hk, List.map_cons, List.mem_cons, ih]
      constructor
      · intro h hmem
        rcases hmem with he | hmem
        · exact hk he.symm
        · exact h hmem
      · intro h hmem
        exact h (Or.inr hmem)

/-- A successful `lookupKey` names a member of the chain. -/
theorem lookupKey_mem (k : K) (l : Chain K V) (v : PyObj V)
    (h : lookupKey k l = some v) : (k, v) ∈ l := by
  induction l with
  | nil => cases h
  | cons a t ih =>
    by_cases hk : a.1 = k
    · rw [lookupKey, if_pos hk] at h
      cases h
      rw [← hk]
      exact List.mem_cons_self a t
    · rw [lookupKey, if_neg hk] at h
      exact List.mem_cons_of_mem a (ih h)

/-- On a chain with distinct keys, membership determines `lookupKey`. -/
theorem lookupKey_of_mem (k : K) (v : PyObj V) (l : Chain K V)
    (hnd : (l.map Prod.fst).Nodup) (hmem : (k, v) ∈ l) :
    lookupKey k l = some v := by
  induction l with
  | nil => cases hmem
  | cons a t ih =>
    rcases List.mem_cons.mp hmem with he | hmem'
    · rw [← he]
      simp [lookupKey]
    · have hk : a.1 ≠ k := by
        intro he2
        have : k ∈ t.map Prod.fst := List.mem_map.mpr ⟨(k, v), hmem', rfl⟩
        rw [List.map_cons, List.nodup_cons] at hnd
        exact hnd.1 (he2 ▸ this)
      rw [lookupKey, if_neg hk]
      exact ih (by rw [List.map_cons, List.nodup_cons] at hnd; exact hnd.2) hmem'

/-- `LinkedList.find` is `lookupKey` with the stored-`None` conflation. -/
theorem llFind_eq (k : K) (l : Chain K V) :
    llFind k l = (lookupKey k l).getD PyObj.pynone := by
  induction l with
  | nil => rfl
  | cons a t ih =>
    by_cases hk : a.1 = k
    · rcases a with ⟨k0, v0⟩
      have hk' : k0 = k := hk
      show (if k0 = k then v0 else llFind k t) =
        (if k0 = k then some v0 else lookupKey k t).getD PyObj.pynone
      rw [if_pos hk', if_pos hk']
      rfl
    · rcases a with ⟨k0, v0⟩
      have hk' : ¬ k0 = k := hk
      show (if k0 = k then v0 else llFind k t) =
        (if k0 = k then some v0 else lookupKey k t).getD PyObj.pynone
      rw [if_neg hk', if_neg hk']
      exact ih

/-- The in-place replacement fails exactly when the key is absent. -/
theorem llReplace_eq_none_iff (k : K) (v : PyObj V) (l : Chain K V) :
    llReplace k v l = Option.none ↔ lookupKey k l = Option.none := by
  induction l with
  | nil => simp [llReplace, lookupKey]
  | cons a t ih =>
    by_cases hk : a.1 = k
    · simp [llReplace, lookupKey, hk]
    · simp only [llReplace, lookupKey, if_neg hk]
      rw [← ih]
      cases llReplace k v t <;> simp

/-- What replacement does to every lookup. -/
theorem llReplace_lookup (k : K) (v : PyObj V) (l l' : Chain K V)
    (h : llReplace k v l = some l') (k' : K) :
    lookupKey k' l' = if k' = k then some v else lookupKey k' l := by
  induction l generalizing l' with
  | nil => cases h
  | cons a t ih =>
    rw [llReplace] at h
    by_cases hk : a.1 = k
    · rw [if_pos hk] at h
      cases h
      by_cases hk' : k' = k
      · rw [if_pos hk']
        show (if a.1 = k' then some v else lookupKey k' t) = some v
        rw [if_pos (hk.trans hk'.symm)]
      · rw [if_neg hk']
        have ha : ¬ a.1 = k' := fun he => hk' (he.symm.trans hk)
        show (if a.1 = k' then some v else lookupKey k' t) = lookupKey k' (a :: t)
        rw [if_neg ha]
        show lookupKey k' t = if a.1 = k' then some a.2 else lookupKey k' t
        rw [if_neg ha]
    · rw [if_neg hk] at h
      cases ht : llReplace k v t with
      | none =>
        rw [ht] at h
        cases h
      | some t' =>
        rw [ht] at h
        cases h
        show (if a.1 = k' then some a.2 else lookupKey k' t') = _
        by_cases hak' : a.1 = k'
        · rw [if_pos hak']
          have hk'' : ¬ k' = k := fun he => hk (hak'.trans he)
          rw [if_neg hk'']
          show some a.2 = if a.1 = k' then some a.2 else lookupKey k' t
          rw [if_pos hak']
        · rw [if_neg hak', ih t' ht]
          by_cases hk' : k' = k
          · rw [if_pos hk', if_pos hk']
          · rw [if_neg hk', if_neg hk']
            show lookupKey k' t = if a.1 = k' then some a.2 else lookupKey k' t
            rw [if_neg hak']

/-- Replacement keeps the key sequence of the chain. -/
theorem llReplace_keys (k : K) (v : PyObj V) (l l' : Chain K V)
    (h : llReplace k v l = some l') : l'.map Prod.fst = l.map Prod.fst := by
  induction l generalizing l' with
  | nil => cases h
  | cons a t ih =>
    by_cases hk : a.1 = k
    · rw [llReplace, if_pos hk] at h
      cases h
      simp
    · rw [llReplace, if_neg hk] at h
      cases ht : llReplace k v t with
      | none => rw [ht] at h; cases h
      | some t' =>
        rw [ht] at h
        cases h
        simp [ih t' ht]

/-- Replacement keeps the length of the chain. -/
theorem llReplace_length (k : K) (v : PyObj V) (l l' : Chain K V)
    (h : llReplace k v l = some l') : l'.length = l.length := by
  have := llReplace_keys k v l l' h
  have h1 : (l'.map Prod.fst).length = (l.map Prod.fst).length := by rw [this]
  simpa using h1

/-- Every node of the replaced chain is the new pair or an old node. -/
theorem llReplace_mem (k : K) (v : PyObj V) (l l' : Chain K V)
    (h : llReplace k v l = some l') (kv : K × PyObj V) (hm : kv ∈ l') :
    kv = (k, v) ∨ kv ∈ l := by
  induction l generalizing l' with
  | nil => cases h
  | cons a t ih =>
    by_cases hk : a.1 = k
    · rw [llReplace, if_pos hk] at h
      cases h
      rcases List.mem_cons.mp hm with he | hm'
      · left
        rw [he, hk]
      · right
        exact List.mem_cons_of_mem a hm'
    · rw [llReplace, if_neg hk] at h
      cases ht : llReplace k v t with
      | none => rw [ht] at h; cases h
      | some t' =>
        rw [ht] at h
        cases h
        rcases List.mem_cons.mp hm with he | hm'
        · right
          rw [he]
          exact List.mem_cons_self a t
        · rcases ih t' ht hm' with hl | hr
          · exact Or.inl hl
          · exact Or.inr (List.mem_cons_of_mem a hr)

/-- `insert_or_replace` when the key is absent: prepend. -/
theorem ior_eq_none (k : K) (v : PyObj V) (l : Chain K V)
    (hr : llReplace k v l = Option.none) :
    insert_or_replace k v l = (true, (k, v) :: l) := by
  unfold insert_or_replace
  rw [hr]

/-- `insert_or_replace` when the key is present: replace in place. -/
theorem ior_eq_some (k : K) (v : PyObj V) (l l' : Chain K V)
    (hr : llReplace k v l = some l') :
    insert_or_replace k v l = (false, l') := by
  unfold insert_or_replace
  rw [hr]

/-- `insert_or_replace` reports an insertion exactly when the key was absent. -/
theorem ior_fst (k : K) (v : PyObj V) (l : Chain K V) :
    (insert_or_replace k v l).1 = (lookupKey k l).isNone := by
  cases hr : llReplace k v l with
  | none =>
    rw [ior_eq_none k v l hr, (llReplace_eq_none_iff k v l).mp hr]
    rfl
  | some l' =>
    rw [ior_eq_some k v l l' hr]
    cases hl : lookupKey k l with
    | none =>
      rw [(llReplace_eq_none_iff k v l).mpr hl] at hr
      cases hr
    | some w => rfl

/-- What `insert_or_replace` does to every lookup. -/
theorem ior_lookup (k : K) (v : PyObj V) (l : Chain K V) (k' : K) :
    lookupKey k' (insert_or_replace k v l).2 =
      if k' = k then some v else lookupKey k' l := by
  cases hr : llReplace k v l with
  | none =>
    rw [ior_eq_none k v l hr]
    show (if k = k' then some v else lookupKey k' l) = _
    by_cases hk' : k' = k
    · rw [if_pos hk'.symm, if_pos hk']
    · rw [if_neg (fun he => hk' he.symm), if_neg hk']
  | some l' =>
    rw [ior_eq_some k v l l' hr]
    exact llReplace_lookup k v l l' hr k'

/-- `insert_or_replace` keeps chain keys distinct. -/
theorem ior_nodup (k : K) (v : PyObj V) (l : Chain K V)
    (hnd : (l.map Prod.fst).Nodup) :
    (((insert_or_replace k v l).2).map Prod.fst).Nodup := by
  cases hr : llReplace k v l with
  | none =>
    rw [ior_eq_none k v l hr]
    rw [List.map_cons, List.nodup_cons]
    refine ⟨?_, hnd⟩
    intro hmem
    have h1 := (llReplace_eq_none_iff k v l).mp hr
    rw [lookupKey_eq_none_iff] at h1
    exact h1 hmem
  | some l' =>
    rw [ior_eq_some k v l l' hr]
    show (l'.map Prod.fst).Nodup
    rw [llReplace_keys k v l l' hr]
    exact hnd

/-- Members of the chain after `insert_or_replace`. -/
theorem ior_mem (k : K) (v : PyObj V) (l : Chain K V) (kv : K × PyObj V)
    (hm : kv ∈ (insert_or_replace k v l).2) : kv = (k, v) ∨ kv ∈ l := by
  cases hr : llReplace k v l with
  | none =>
    rw [ior_eq_none k v l hr] at hm
    rcases List.mem_cons.mp hm with he | hm'
    · exact Or.inl he
    · exact Or.inr hm'
  | some l' =>
    rw [ior_eq_some k v l l' hr] at hm
    exact llReplace_mem k v l l' hr kv hm

/-- The chain length after `insert_or_replace`. -/
theorem ior_length (k : K) (v : PyObj V) (l : Chain K V) :
    ((insert_or_replace k v l).2).length =
      if (insert_or_replace k v l).1 then l.length + 1 else l.length := by
  cases hr : llReplace k v l with
  | none =>
    rw [ior_eq_none k v l hr]
    rfl
  | some l' =>
    rw [ior_eq_some k v l l' hr]
    show l'.length = l.length
    exact llReplace_length k v l l' hr

/-- `LinkedList.delete` reports success exactly when the key was present. -/
theorem llDelete_fst (k : K) (l : Chain K V) :
    (llDelete k l).1 = (lookupKey k l).isSome := by
  induction l with
  | nil => rfl
  | cons a t ih =>
    show (if a.1 = k then (true, t)
      else ((llDelete k t).1, a :: (llDelete k t).2)).1 =
      (if a.1 = k then some a.2 else lookupKey k t).isSome
    by_cases hk : a.1 = k
    · rw [if_pos hk, if_pos hk]
      rfl
    · rw [if_neg hk, if_neg hk]
      exact ih

/-- Deleting a key removes it, provided the chain keys are distinct. -/
theorem llDelete_lookup_self (k : K) (l : Chain K V)
    (hnd : (l.map Prod.fst).Nodup) :
    lookupKey k (llDelete k l).2 = Option.none := by
  induction l with
  | nil => rfl
  | cons a t ih =>
    rw [List.map_cons, List.nodup_cons] at hnd
    show lookupKey k (if a.1 = k then (true, t)
      else ((llDelete k t).1, a :: (llDelete k t).2)).2 = Option.none
    by_cases hk : a.1 = k
    · rw [if_pos hk]
      rw [lookupKey_eq_none_iff]
      rw [← hk]
      exact hnd.1
    · rw [if_neg hk]
      show (if a.1 = k then some a.2 else lookupKey k (llDelete k t).2) = Option.none
      rw [if_neg hk]
      exact ih hnd.2

/-- Deleting one key leaves lookups of other keys unchanged. -/
theorem llDelete_lookup_other (k k' : K) (l : Chain K V) (hne : k' ≠ k) :
    lookupKey k' (llDelete k l).2 = lookupKey k' l := by
  induction l with
  | nil => rfl
  | cons a t ih =>
    show lookupKey k' (if a.1 = k then (true, t)
      else ((llDelete k t).1, a :: (llDelete k t).2)).2 =
      (if a.1 = k' then some a.2 else lookupKey k' t)
    by_cases hk : a.1 = k
    · rw [if_pos hk]
      have ha : ¬ a.1 = k' := fun he => hne (he.symm.trans hk)
      rw [if_neg ha]
    · rw [if_neg hk]
      show (if a.1 = k' then some a.2 else lookupKey k' (llDelete k t).2) = _
      by_cases hk' : a.1 = k'
      · rw [if_pos hk', if_pos hk']
      · rw [if_neg hk', if_neg hk']
        exact ih

/-- Members of the chain after a deletion were members before. -/
theorem llDelete_mem (k : K) (l : Chain K V) (kv : K × PyObj V)
    (hm : kv ∈ (llDelete k l).2) : kv ∈ l := by
  induction l with
  | nil => exact absurd hm (by simp [llDelete])
  | cons a t ih =>
    by_cases hk : a.1 = k
    · rw [show llDelete k (a :: t) = (true, t) from by
        show (if a.1 = k then _ else _) = _
        rw [if_pos hk]] at hm
      exact List.mem_cons_of_mem a hm
    · rw [show llDelete k (a :: t) = ((llDelete k t).1, a :: (llDelete k t).2) from by
        show (if a.1 = k then _ else _) = _
        rw [if_neg hk]] at hm
      rcases List.mem_cons.mp hm with he | hm'
      · rw [he]
        exact List.mem_cons_self a t
      · exact List.mem_cons_of_mem a (ih hm')

/-- Deletion keeps chain keys distinct. -/
theorem llDelete_nodup (k : K) (l : Chain K V)
    (hnd : (l.map Prod.fst).Nodup) :
    (((llDelete k l).2).map Prod.fst).Nodup := by
  induction l with
  | nil => exact hnd
  | cons a t ih =>
    rw [List.map_cons, List.nodup_cons] at hnd
    by_cases hk : a.1 = k
    · rw [show llDelete k (a :: t) = (true, t) from by
        show (if a.1 = k then _ else _) = _
        rw [if_pos hk]]
      exact hnd.2
    · rw [show llDelete k (a :: t) = ((llDelete k t).1, a :: (llDelete k t).2) from by
        show (if a.1 = k then _ else _) = _
        rw [if_neg hk]]
      rw [List.map_cons, List.nodup_cons]
      refine ⟨?_, ih hnd.2⟩
      intro hmem
      rcases List.mem_map.mp hmem with ⟨kv, hkv, hfst⟩
      exact hnd.1 (List.mem_map.mpr ⟨kv, llDelete_mem k t kv hkv, hfst⟩)

/-- The chain length after a deletion. -/
theorem llDelete_length (k : K) (l : Chain K V) :
    ((llDelete k l).2).length =
      if (lookupKey k l).isSome then l.length - 1 else l.length := by
  induction l with
  | nil => rfl
  | cons a t ih =>
    by_cases hk : a.1 = k
    · rw [show llDelete k (a :: t) = (true, t) from by
        show (if a.1 = k then _ else _) = _
        rw [if_pos hk]]
      show t.length = if (if a.1 = k then some a.2 else lookupKey k t).isSome
        then (a :: t).length - 1 else (a :: t).length
      rw [if_pos hk]
      simp
    · rw [show llDelete k (a :: t) = ((llDelete k t).1, a :: (llDelete k t).2) from by
        show (if a.1 = k then _ else _) = _
        rw [if_neg hk]]
      show (a :: (llDelete k t).2).length =
        if (if a.1 = k then some a.2 else lookupKey k t).isSome
        then (a :: t).length - 1 else (a :: t).length
      rw [if_neg hk]
      cases hl : lookupKey k t with
      | none =>
        rw [hl] at ih
        simp only [Option.isSome_none, if_false] at ih ⊢
        simp [ih]
      | some w =>
        rw [hl] at ih
        simp only [Option.isSome_some, if_true] at ih ⊢
        have : 0 < t.length := by
          have := lookupKey_mem k t w hl
          exact List.length_pos_of_mem this
        simp only [List.length_cons, ih]
        omega

end ChainLemmas

namespace HashMap

variable {K V : Type} [DecidableEq K]

/-- The bucket index is always in range. -/
theorem bucket_index_lt (hash : K → Nat) (cap : Nat) (hpos : 0 < cap) (k : K) :
    bucket_index hash cap k < cap := by
  unfold bucket_index
  by_cases hpow : cap &&& (cap - 1) = 0
  · rw [if_pos hpow]
    have h : hash k &&& (cap - 1) ≤ cap - 1 := Nat.and_le_right
    omega
  · rw [if_neg hpow]
    exact Nat.mod_lt _ hpos

/-- Bridge from the `getD` access of the source to optional indexing. -/
theorem getD_buckets (bs : List (Option (Chain K V))) (i : Nat) :
    bs.getD i Option.none = (bs[i]?).getD Option.none :=
  List.getD_eq_getElem?_getD bs i Option.none

/-- `entriesOf` distributes over appending bucket arrays. -/
theorem entriesOf_append (b1 b2 : List (Option (Chain K V))) :
    entriesOf (b1 ++ b2) = entriesOf b1 ++ entriesOf b2 := by
  unfold entriesOf
  rw [List.map_append, List.flatten_append]

/-- `entriesOf` on a cons. -/
theorem entriesOf_cons (ob : Option (Chain K V)) (bs : List (Option (Chain K V))) :
    entriesOf (ob :: bs) = ob.getD [] ++ entriesOf bs := rfl

/-- A fresh bucket array has no entries. -/
theorem entriesOf_replicate (n : Nat) :
    entriesOf (List.replicate n (Option.none : Option (Chain K V))) = [] := by
  induction n with
  | zero => rfl
  | succ n ih =>
    rw [List.replicate_succ, entriesOf_cons, ih]
    rfl

/-- An entry of a bucket array lives in some allocated bucket. -/
theorem mem_entriesOf (bs : List (Option (Chain K V))) (kv : K × PyObj V) :
    kv ∈ entriesOf bs ↔ ∃ (i : Nat) (b : Chain K V), bs[i]? = some (some b) ∧ kv ∈ b := by
  induction bs with
  | nil =>
    simp only [entriesOf, List.map_nil, List.flatten_nil, List.not_mem_nil,
      false_iff]
    rintro ⟨i, b, hib, _⟩
    simp at hib
  | cons ob bs ih =>
    rw [entriesOf_cons, List.mem_append, ih]
    constructor
    · rintro (hin | ⟨i, b, hib, hb⟩)
      · cases ob with
        | none => cases hin
        | some b0 => exact ⟨0, b0, by simp, hin⟩
      · exact ⟨i + 1, b, by simpa using hib, hb⟩
    · rintro ⟨i, b, hib, hb⟩
      cases i with
      | zero =>
        left
        rw [List.getElem?_cons_zero] at hib
        cases hib
        exact hb
      | succ i' =>
        right
        rw [List.getElem?_cons_succ] at hib
        exact ⟨i', b, hib, hb⟩

/-- `lookupKey` over a concatenation: first hit wins. -/
theorem lookupKey_append (k : K) (l1 l2 : Chain K V) :
    lookupKey k (l1 ++ l2) =
      match lookupKey k l1 with
      | some w => some w
      | Option.none => lookupKey k l2 := by
  induction l1 with
  | nil => rfl
  | cons a t ih =>
    show lookupKey k (a :: (t ++ l2)) = _
    by_cases hk : a.1 = k
    · show (if a.1 = k then some a.2 else lookupKey k (t ++ l2)) = _
      rw [if_pos hk]
      show _ = (match (if a.1 = k then some a.2 else lookupKey k t) with
        | some w => some w
        | Option.none => lookupKey k l2)
      rw [if_pos hk]
    · show (if a.1 = k then some a.2 else lookupKey k (t ++ l2)) = _
      rw [if_neg hk]
      show _ = (match (if a.1 = k then some a.2 else lookupKey k t) with
        | some w => some w
        | Option.none => lookupKey k l2)
      rw [if_neg hk]
      exact ih

/-- `entry?` reads the bucket the key hashes to. -/
theorem entry?_eq_lookup_bucket (hash : K → Nat) (m : HashMap K V) (k : K) :
    entry? hash m k =
      lookupKey k ((m.buckets.getD (bucket_index hash m.cap k) Option.none).getD []) := by
  unfold entry?
  cases m.buckets.getD (bucket_index hash m.cap k) Option.none with
  | none => rfl
  | some b => rfl

/-- `HashMap.get` through the specification-level lookup `entry?`: the stored
value when present and not Python `None`, the default otherwise. -/
theorem get_eq_entry? (hash : K → Nat) (m : HashMap K V) (k : K) (d : PyObj V) :
    get hash m k d =
      match entry? hash m k with
      | some w => if w.isNone then d else w
      | Option.none => d := by
  simp only [get, entry?]
  cases m.buckets.getD (bucket_index hash m.cap k) Option.none with
  | none => rfl
  | some b =>
    show (if (llFind k b).isNone then d else llFind k b) = _
    rw [llFind_eq]
    show (if ((lookupKey k b).getD PyObj.pynone).isNone = true then d
        else (lookupKey k b).getD PyObj.pynone) =
      (match lookupKey k b with
       | some w => if w.isNone = true then d else w
       | Option.none => d)
    cases lookupKey k b with
    | none => rfl
    | some w => rfl

/-- A fresh table state is well-formed. -/
theorem WF_fresh (hash : K → Nat) (c : Nat) (load : ℚ) (hpos : 0 < c) :
    WF hash (⟨c, load, List.replicate c Option.none, 0⟩ : HashMap K V) := by
  constructor
  · exact List.length_replicate c Option.none
  · exact hpos
  · intro i b kv hib hkv
    rw [List.getElem?_replicate] at hib
    by_cases hi : i < c
    · rw [if_pos hi] at hib
      cases hib
    · rw [if_neg hi] at hib
      cases hib
  · intro i b hib
    rw [List.getElem?_replicate] at hib
    by_cases hi : i < c
    · rw [if_pos hi] at hib
      cases hib
    · rw [if_neg hi] at hib
      cases hib
  · rw [entriesOf_replicate]
    rfl

/-- A fresh table has no entries. -/
theorem entry?_fresh (hash : K → Nat) (c : Nat) (load : ℚ) (k : K) :
    entry? hash (⟨c, load, List.replicate c Option.none, 0⟩ : HashMap K V) k =
      Option.none := by
  rw [entry?_eq_lookup_bucket, getD_buckets, List.getElem?_replicate]
  by_cases hi : bucket_index hash c k < c
  · rw [if_pos hi]
    rfl
  · rw [if_neg hi]
    rfl

/-- The constructed table is well-formed. -/
theorem WF_init (hash : K → Nat) (capacity : Nat) (load : ℚ) :
    WF hash (init capacity load : HashMap K V) := by
  show WF hash (⟨if capacity < 4 then 4 else capacity, load,
    List.replicate (if capacity < 4 then 4 else capacity) Option.none, 0⟩ : HashMap K V)
  apply WF_fresh
  split
  · omega
  · omega

/-- The constructed table has no entries. -/
theorem entry?_init (hash : K → Nat) (capacity : Nat) (load : ℚ) (k : K) :
    entry? hash (init capacity load : HashMap K V) k = Option.none :=
  entry?_fresh hash _ load k

/-- `lookupKey` misses when no entry carries the key. -/
theorem lookupKey_eq_none_of_forall (k : K) (l : Chain K V)
    (h : ∀ kv ∈ l, kv.1 ≠ k) : lookupKey k l = Option.none := by
  rw [lookupKey_eq_none_iff]
  intro hmem
  rcases List.mem_map.mp hmem with ⟨kv, hkv, hfst⟩
  exact h kv hkv hfst

/-- A bucket visible through `getD` really is stored at that slot. -/
theorem getD_eq_some (bs : List (Option (Chain K V))) (i : Nat) (b : Chain K V)
    (h : bs.getD i Option.none = some b) : bs[i]? = some (some b) := by
  rw [getD_buckets] at h
  cases hi : bs[i]? with
  | none => rw [hi] at h; cases h
  | some ob =>
    rw [hi] at h
    rw [Option.getD_some] at h
    rw [h]

/-- Splitting a bucket array at a stored slot. -/
theorem buckets_decomp (bs : List (Option (Chain K V))) (i : Nat)
    (ob : Option (Chain K V)) (h : bs[i]? = some ob) :
    bs = bs.take i ++ ob :: bs.drop (i + 1) := by
  rcases List.getElem?_eq_some_iff.mp h with ⟨hi, hget⟩
  conv_lhs => rw [← List.take_append_drop i bs]
  rw [List.drop_eq_getElem_cons hi, hget]

/-- Setting a slot, written as a split at that slot. -/
theorem set_decomp (bs : List (Option (Chain K V))) (i : Nat)
    (c : Option (Chain K V)) (h : i < bs.length) :
    bs.set i c = bs.take i ++ c :: bs.drop (i + 1) := by
  rw [List.set_eq_take_append_cons_drop, if_pos h]

/-- Reading back the slot just written. -/
theorem getElem?_set_self_of_lt {A : Type} (l : List A) (i : Nat) (a : A)
    (h : i < l.length) : (l.set i a)[i]? = some a := by
  simp [List.getElem?_set, h]

/-- Entries stored before the key's own slot never carry the key. -/
theorem entriesOf_take_ne (hash : K → Nat) (m : HashMap K V) (hwf : WF hash m)
    (k : K) (kv : K × PyObj V)
    (hm : kv ∈ entriesOf (m.buckets.take (bucket_index hash m.cap k))) :
    kv.1 ≠ k := by
  rcases (mem_entriesOf _ kv).mp hm with ⟨j, b, hjb, hb⟩
  have hlen : (m.buckets.take (bucket_index hash m.cap k)).length ≤
      bucket_index hash m.cap k := by
    rw [List.length_take]
    omega
  have hjlt : j < bucket_index hash m.cap k := by
    have h1 := (List.getElem?_eq_some_iff.mp hjb).1
    omega
  have hjb2 : m.buckets[j]? = some (some b) := by
    rw [← List.getElem?_take_of_lt hjlt]
    exact hjb
  have hidx := hwf.hidx j b kv hjb2 hb
  intro hk
  rw [hk] at hidx
  omega

/-- Entries stored after the key's own slot never carry the key. -/
theorem entriesOf_drop_ne (hash : K → Nat) (m : HashMap K V) (hwf : WF hash m)
    (k : K) (kv : K × PyObj V)
    (hm : kv ∈ entriesOf (m.buckets.drop (bucket_index hash m.cap k + 1))) :
    kv.1 ≠ k := by
  rcases (mem_entriesOf _ kv).mp hm with ⟨j, b, hjb, hb⟩
  rw [List.getElem?_drop] at hjb
  have hidx := hwf.hidx _ b kv hjb hb
  intro hk
  rw [hk] at hidx
  omega

/-- On a well-formed table, `entry?` agrees with a linear lookup over `items`,
the concatenation of all buckets. -/
theorem entry?_eq_items_lookup (hash : K → Nat) (m : HashMap K V)
    (hwf : WF hash m) (k : K) :
    entry? hash m k = lookupKey k (items m) := by
  have hlt : bucket_index hash m.cap k < m.buckets.length := by
    rw [hwf.hlen]
    exact bucket_index_lt hash m.cap hwf.hpos k
  cases hob : m.buckets[bucket_index hash m.cap k]? with
  | none =>
    rw [List.getElem?_eq_none_iff] at hob
    omega
  | some ob =>
    have hdec := buckets_decomp m.buckets _ ob hob
    have h1 : lookupKey k (entriesOf (m.buckets.take (bucket_index hash m.cap k))) =
        Option.none :=
      lookupKey_eq_none_of_forall k _ (fun kv hkv => entriesOf_take_ne hash m hwf k kv hkv)
    have h2 : lookupKey k (entriesOf (m.buckets.drop (bucket_index hash m.cap k + 1))) =
        Option.none :=
      lookupKey_eq_none_of_forall k _ (fun kv hkv => entriesOf_drop_ne hash m hwf k kv hkv)
    show entry? hash m k = lookupKey k (entriesOf m.buckets)
    conv_rhs => rw [hdec]
    rw [entriesOf_append, entriesOf_cons, lookupKey_append, h1]
    show entry? hash m k =
      lookupKey k (ob.getD [] ++ entriesOf (m.buckets.drop (bucket_index hash m.cap k + 1)))
    rw [lookupKey_append, h2]
    rw [entry?_eq_lookup_bucket, getD_buckets, hob]
    show lookupKey k (ob.getD []) =
      (match lookupKey k (ob.getD []) with
       | some w => some w
       | Option.none => Option.none)
    cases lookupKey k (ob.getD []) with
    | none => rfl
    | some w => rfl

/-- On a well-formed table, the keys of `items` are pairwise distinct. -/
theorem items_keys_nodup (hash : K → Nat) (m : HashMap K V) (hwf : WF hash m) :
    ((items m).map Prod.fst).Nodup := by
  show ((entriesOf m.buckets).map Prod.fst).Nodup
  unfold entriesOf
  rw [List.map_flatten, List.nodup_flatten]
  constructor
  · intro s hs
    rcases List.mem_map.mp hs with ⟨b0, hb0, hsb⟩
    rcases List.mem_map.mp hb0 with ⟨ob, hob, hbob⟩
    rcases List.mem_iff_getElem?.mp hob with ⟨j, hj⟩
    cases ob with
    | none =>
      rw [← hsb, ← hbob]
      simp
    | some b =>
      rw [← hsb, ← hbob]
      exact hwf.hnodup j b hj
  · rw [List.pairwise_iff_getElem]
    intro i j hi hj hij x hxi hxj
    simp only [List.getElem_map] at hxi hxj
    rcases List.mem_map.mp hxi with ⟨kv1, hkv1, hx1⟩
    rcases List.mem_map.mp hxj with ⟨kv2, hkv2, hx2⟩
    have hiL : i < m.buckets.length := by
      simp only [List.length_map] at hi
      exact hi
    have hjL : j < m.buckets.length := by
      simp only [List.length_map] at hj
      exact hj
    cases hoi : m.buckets[i] with
    | none =>
      rw [hoi] at hkv1
      simp at hkv1
    | some b1 =>
      cases hoj : m.buckets[j] with
      | none =>
        rw [hoj] at hkv2
        simp at hkv2
      | some b2 =>
        rw [hoi] at hkv1
        rw [hoj] at hkv2
        rw [Option.getD_some] at hkv1 hkv2
        have hib1 : m.buckets[i]? = some (some b1) :=
          List.getElem?_eq_some_iff.mpr ⟨hiL, hoi⟩
        have hib2 : m.buckets[j]? = some (some b2) :=
          List.getElem?_eq_some_iff.mpr ⟨hjL, hoj⟩
        have e1 := hwf.hidx i b1 kv1 hib1 hkv1
        have e2 := hwf.hidx j b2 kv2 hib2 hkv2
        rw [hx1] at e1
        rw [hx2] at e2
        rw [e1] at e2
        omega

/-- On a well-formed table, `items` holds exactly the `entry?` bindings. -/
theorem mem_items_iff (hash : K → Nat) (m : HashMap K V) (hwf : WF hash m)
    (k : K) (v : PyObj V) :
    (k, v) ∈ items m ↔ entry? hash m k = some v := by
  constructor
  · intro hm
    rw [entry?_eq_items_lookup hash m hwf k]
    exact lookupKey_of_mem k v (items m) (items_keys_nodup hash m hwf) hm
  · intro he
    rw [entry?_eq_items_lookup hash m hwf k] at he
    exact lookupKey_mem k (items m) v he

/-- Projections of an explicitly built state. -/
theorem buckets_mk (c : Nat) (ld : ℚ) (bs : List (Option (Chain K V))) (s : Nat) :
    (⟨c, ld, bs, s⟩ : HashMap K V).buckets = bs := rfl

/-- Capacity of an explicitly built state. -/
theorem cap_mk (c : Nat) (ld : ℚ) (bs : List (Option (Chain K V))) (s : Nat) :
    (⟨c, ld, bs, s⟩ : HashMap K V).cap = c := rfl

/-- `entry?` on an explicitly built state, in indexing form. -/
theorem entry?_mk (hash : K → Nat) (c : Nat) (ld : ℚ)
    (bs : List (Option (Chain K V))) (s : Nat) (k : K) :
    entry? hash (⟨c, ld, bs, s⟩ : HashMap K V) k =
      lookupKey k ((bs[bucket_index hash c k]?.getD Option.none).getD []) := by
  rw [entry?_eq_lookup_bucket, getD_buckets]

/-- The state `setRaw` returns, written out. -/
theorem setRaw_snd (hash : K → Nat) (m : HashMap K V) (k : K) (v : PyObj V) :
    (setRaw hash m k v).2 =
      ⟨m.cap, m.load,
       m.buckets.set (bucket_index hash m.cap k)
         (some (insert_or_replace k v
           ((m.buckets.getD (bucket_index hash m.cap k) Option.none).getD [])).2),
       m.size⟩ := rfl

/-- `setRaw` keeps the capacity field. -/
theorem setRaw_cap (hash : K → Nat) (m : HashMap K V) (k : K) (v : PyObj V) :
    (setRaw hash m k v).2.cap = m.cap := rfl

/-- `setRaw` keeps the load-factor field. -/
theorem setRaw_load (hash : K → Nat) (m : HashMap K V) (k : K) (v : PyObj V) :
    (setRaw hash m k v).2.load = m.load := rfl

/-- `setRaw` keeps the size field (the callers adjust it). -/
theorem setRaw_size (hash : K → Nat) (m : HashMap K V) (k : K) (v : PyObj V) :
    (setRaw hash m k v).2.size = m.size := rfl

/-- `setRaw` reports an insertion exactly when the key was absent. -/
theorem setRaw_fst (hash : K → Nat) (m : HashMap K V) (k : K) (v : PyObj V) :
    (setRaw hash m k v).1 = (entry? hash m k).isNone := by
  rw [entry?_eq_lookup_bucket]
  exact ior_fst k v _

/-- Effect of `setRaw` on `entry?` at every key. -/
theorem setRaw_entry? (hash : K → Nat) (m : HashMap K V) (k : K) (v : PyObj V)
    (hwf : WF hash m) (k' : K) :
    entry? hash (setRaw hash m k v).2 k' =
      if k' = k then some v else entry? hash m k' := by
  have hlt : bucket_index hash m.cap k < m.buckets.length := by
    rw [hwf.hlen]
    exact bucket_index_lt hash m.cap hwf.hpos k
  rw [setRaw_snd, entry?_mk]
  by_cases hik : bucket_index hash m.cap k' = bucket_index hash m.cap k
  · rw [hik, getElem?_set_self_of_lt _ _ _ hlt]
    show lookupKey k' (insert_or_replace k v
        ((m.buckets.getD (bucket_index hash m.cap k) Option.none).getD [])).2 = _
    rw [ior_lookup]
    by_cases hkk : k' = k
    · rw [if_pos hkk, if_pos hkk]
    · rw [if_neg hkk, if_neg hkk, entry?_eq_lookup_bucket, hik]
  · rw [List.getElem?_set_ne (fun he => hik he.symm)]
    have hkk : k' ≠ k := fun he => hik (by rw [he])
    rw [if_neg hkk, entry?_eq_lookup_bucket, getD_buckets]

/-- The bucket `setRaw` reads has distinct keys under well-formedness. -/
theorem bucket_read_nodup (hash : K → Nat) (m : HashMap K V) (hwf : WF hash m)
    (i : Nat) :
    (((m.buckets.getD i Option.none).getD []).map Prod.fst).Nodup := by
  cases hb0 : m.buckets.getD i Option.none with
  | none => simp
  | some b1 =>
    rw [Option.getD_some]
    exact hwf.hnodup i b1 (getD_eq_some m.buckets i b1 hb0)

/-- Entries of the bucket at a slot hash to that slot. -/
theorem bucket_read_mem (hash : K → Nat) (m : HashMap K V) (hwf : WF hash m)
    (i : Nat) (kv : K × PyObj V)
    (hm : kv ∈ (m.buckets.getD i Option.none).getD []) :
    bucket_index hash m.cap kv.1 = i := by
  cases hb0 : m.buckets.getD i Option.none with
  | none =>
    rw [hb0] at hm
    simp at hm
  | some b1 =>
    rw [hb0, Option.getD_some] at hm
    exact hwf.hidx i b1 kv (getD_eq_some m.buckets i b1 hb0) hm

/-- After `setRaw`, every entry still sits in its key's bucket. -/
theorem setRaw_hidx (hash : K → Nat) (m : HashMap K V) (k : K) (v : PyObj V)
    (hwf : WF hash m) (i : Nat) (b : Chain K V) (kv : K × PyObj V)
    (hib : (setRaw hash m k v).2.buckets[i]? = some (some b)) (hkv : kv ∈ b) :
    bucket_index hash m.cap kv.1 = i := by
  have hlt : bucket_index hash m.cap k < m.buckets.length := by
    rw [hwf.hlen]
    exact bucket_index_lt hash m.cap hwf.hpos k
  rw [setRaw_snd, buckets_mk] at hib
  by_cases hi : i = bucket_index hash m.cap k
  · subst hi
    rw [getElem?_set_self_of_lt _ _ _ hlt] at hib
    cases hib
    rcases ior_mem k v _ kv hkv with he | hm
    · rw [he]
    · exact bucket_read_mem hash m hwf _ kv hm
  · rw [List.getElem?_set_ne (fun he => hi he.symm)] at hib
    exact hwf.hidx i b kv hib hkv

/-- After `setRaw`, every bucket still has distinct keys. -/
theorem setRaw_hnodup (hash : K → Nat) (m : HashMap K V) (k : K) (v : PyObj V)
    (hwf : WF hash m) (i : Nat) (b : Chain K V)
    (hib : (setRaw hash m k v).2.buckets[i]? = some (some b)) :
    (b.map Prod.fst).Nodup := by
  have hlt : bucket_index hash m.cap k < m.buckets.length := by
    rw [hwf.hlen]
    exact bucket_index_lt hash m.cap hwf.hpos k
  rw [setRaw_snd, buckets_mk] at hib
  by_cases hi : i = bucket_index hash m.cap k
  · subst hi
    rw [getElem?_set_self_of_lt _ _ _ hlt] at hib
    cases hib
    exact ior_nodup k v _ (bucket_read_nodup hash m hwf _)
  · rw [List.getElem?_set_ne (fun he => hi he.symm)] at hib
    exact hwf.hnodup i b hib

/-- How `setRaw` changes the total number of stored entries. -/
theorem setRaw_entries_length (hash : K → Nat) (m : HashMap K V) (k : K)
    (v : PyObj V) (hwf : WF hash m) :
    (entriesOf (setRaw hash m k v).2.buckets).length =
      (entriesOf m.buckets).length +
        (if (entry? hash m k).isNone then 1 else 0) := by
  have hlt : bucket_index hash m.cap k < m.buckets.length := by
    rw [hwf.hlen]
    exact bucket_index_lt hash m.cap hwf.hpos k
  cases hob : m.buckets[bucket_index hash m.cap k]? with
  | none =>
    rw [List.getElem?_eq_none_iff] at hob
    omega
  | some ob =>
    have hbod : m.buckets.getD (bucket_index hash m.cap k) Option.none = ob := by
      rw [getD_buckets, hob, Option.getD_some]
    have hlenold : (entriesOf m.buckets).length =
        (entriesOf (m.buckets.take (bucket_index hash m.cap k))).length +
          ((ob.getD []).length +
            (entriesOf (m.buckets.drop (bucket_index hash m.cap k + 1))).length) := by
      conv_lhs => rw [buckets_decomp m.buckets _ ob hob]
      rw [entriesOf_append, entriesOf_cons, List.length_append, List.length_append]
    have hek : entry? hash m k = lookupKey k (ob.getD []) := by
      rw [entry?_eq_lookup_bucket, hbod]
    rw [setRaw_snd, buckets_mk, hbod, set_decomp _ _ _ hlt, entriesOf_append,
      entriesOf_cons, Option.getD_some, List.length_append, List.length_append,
      hlenold, hek, ior_length, ior_fst]
    by_cases hn : (lookupKey k (ob.getD [])).isNone = true
    · rw [if_pos hn, if_pos hn]
      omega
    · rw [if_neg hn, if_neg hn]
      omega

/-- The state `setRaw` produces, with the size field adjusted by the insertion
flag, is well-formed. -/
theorem setRaw_WF_sized (hash : K → Nat) (m : HashMap K V) (k : K) (v : PyObj V)
    (hwf : WF hash m) (s : Nat)
    (hs : s = m.size + (if (entry? hash m k).isNone then 1 else 0)) :
    WF hash (⟨(setRaw hash m k v).2.cap, (setRaw hash m k v).2.load,
      (setRaw hash m k v).2.buckets, s⟩ : HashMap K V) := by
  constructor
  · show (setRaw hash m k v).2.buckets.length = (setRaw hash m k v).2.cap
    rw [setRaw_snd, buckets_mk, cap_mk, List.length_set]
    exact hwf.hlen
  · exact hwf.hpos
  · intro i b kv hib hkv
    exact setRaw_hidx hash m k v hwf i b kv hib hkv
  · intro i b hib
    exact setRaw_hnodup hash m k v hwf i b hib
  · show s = (entriesOf (setRaw hash m k v).2.buckets).length
    rw [hs, setRaw_entries_length hash m k v hwf, hwf.hsize]

/-- `reinsertOne` keeps the capacity field. -/
theorem reinsertOne_cap (hash : K → Nat) (m : HashMap K V) (kv : K × PyObj V) :
    (reinsertOne hash m kv).cap = m.cap := rfl

/-- `reinsertOne` keeps the load-factor field. -/
theorem reinsertOne_load (hash : K → Nat) (m : HashMap K V) (kv : K × PyObj V) :
    (reinsertOne hash m kv).load = m.load := rfl

/-- `reinsertOne` bumps the size field unconditionally. -/
theorem reinsertOne_size (hash : K → Nat) (m : HashMap K V) (kv : K × PyObj V) :
    (reinsertOne hash m kv).size = m.size + 1 := rfl

/-- `reinsertOne` looks up like the underlying `setRaw`. -/
theorem reinsertOne_entry? (hash : K → Nat) (m : HashMap K V) (kv : K × PyObj V)
    (k' : K) :
    entry? hash (reinsertOne hash m kv) k' =
      entry? hash (setRaw hash m kv.1 kv.2).2 k' := rfl

/-- Re-inserting an absent key keeps the table well-formed. -/
theorem reinsertOne_WF (hash : K → Nat) (m : HashMap K V) (kv : K × PyObj V)
    (hwf : WF hash m) (habs : entry? hash m kv.1 = Option.none) :
    WF hash (reinsertOne hash m kv) := by
  have h := setRaw_WF_sized hash m kv.1 kv.2 hwf (m.size + 1)
    (by rw [habs]; rfl)
  exact h

/-- Re-inserting a list of fresh, pairwise-distinct keys: the resulting table
is well-formed, the shape fields survive, the size grows by the list length,
and lookups read the list first. -/
theorem reinsert_fold_spec (hash : K → Nat) (es : Chain K V) :
    ∀ (m : HashMap K V), WF hash m →
    (∀ kv ∈ es, entry? hash m kv.1 = Option.none) →
    ((es.map Prod.fst).Nodup) →
    WF hash (es.foldl (reinsertOne hash) m) ∧
    (es.foldl (reinsertOne hash) m).cap = m.cap ∧
    (es.foldl (reinsertOne hash) m).load = m.load ∧
    (es.foldl (reinsertOne hash) m).size = m.size + es.length ∧
    (∀ k', entry? hash (es.foldl (reinsertOne hash) m) k' =
      (match lookupKey k' es with
       | some w => some w
       | Option.none => entry? hash m k')) := by
  induction es with
  | nil =>
    intro m hwf _ _
    exact ⟨hwf, rfl, rfl, rfl, fun k' => rfl⟩
  | cons a t ih =>
    intro m hwf habs hnd
    have habsa : entry? hash m a.1 = Option.none := habs a (List.mem_cons_self a t)
    have hwfa : WF hash (reinsertOne hash m a) := reinsertOne_WF hash m a hwf habsa
    have hset : ∀ k', entry? hash (reinsertOne hash m a) k' =
        if k' = a.1 then some a.2 else entry? hash m k' := by
      intro k'
      exact setRaw_entry? hash m a.1 a.2 hwf k'
    have hnda : a.1 ∉ t.map Prod.fst := by
      rw [List.map_cons, List.nodup_cons] at hnd
      exact hnd.1
    have hndt : (t.map Prod.fst).Nodup := by
      rw [List.map_cons, List.nodup_cons] at hnd
      exact hnd.2
    have habst : ∀ kv ∈ t, entry? hash (reinsertOne hash m a) kv.1 = Option.none := by
      intro kv hkv
      rw [hset kv.1]
      have hne : kv.1 ≠ a.1 := by
        intro he
        exact hnda (List.mem_map.mpr ⟨kv, hkv, he⟩)
      rw [if_neg hne]
      exact habs kv (List.mem_cons_of_mem a hkv)
    rcases ih (reinsertOne hash m a) hwfa habst hndt with ⟨hW, hC, hL, hS, hE⟩
    refine ⟨hW, hC.trans rfl, hL.trans rfl, ?_, ?_⟩
    · refine hS.trans ?_
      show m.size + 1 + t.length = m.size + (t.length + 1)
      omega
    · intro k'
      refine (hE k').trans ?_
      show (match lookupKey k' t with
            | some w => some w
            | Option.none => entry? hash (reinsertOne hash m a) k') =
        (match (if a.1 = k' then some a.2 else lookupKey k' t) with
         | some w => some w
         | Option.none => entry? hash m k')
      by_cases ha : a.1 = k'
      · have ht : lookupKey k' t = Option.none := by
          apply lookupKey_eq_none_of_forall
          intro kv hkv he
          exact hnda (List.mem_map.mpr ⟨kv, hkv, he.trans ha.symm⟩)
        rw [ht, if_pos ha, hset k', if_pos ha.symm]
      · rw [if_neg ha, hset k', if_neg (fun he => ha he.symm)]

/-- The bucket-by-bucket fold of `_resize` is the fold over all entries. -/
theorem resize_fold_aux (hash : K → Nat) (bs : List (Option (Chain K V))) :
    ∀ (acc : HashMap K V),
    bs.foldl
      (fun acc ob =>
        match ob with
        | Option.none => acc
        | some b => b.foldl (reinsertOne hash) acc) acc =
      (entriesOf bs).foldl (reinsertOne hash) acc := by
  induction bs with
  | nil =>
    intro acc
    rfl
  | cons ob t ih =>
    intro acc
    rw [entriesOf_cons, List.foldl_append]
    cases ob with
    | none =>
      show t.foldl _ acc = _
      rw [ih acc]
      rfl
    | some b =>
      show t.foldl _ (b.foldl (reinsertOne hash) acc) = _
      rw [ih (b.foldl (reinsertOne hash) acc)]
      rfl

/-- `resize` as a single fold of `reinsertOne` over all stored entries,
starting from a doubled, fresh table. -/
theorem resize_eq_fold (hash : K → Nat) (m : HashMap K V) :
    resize hash m =
      (entriesOf m.buckets).foldl (reinsertOne hash)
        ⟨m.cap * 2, m.load, List.replicate (m.cap * 2) Option.none, 0⟩ := by
  exact resize_fold_aux hash m.buckets _

/-- `HashMap._resize` doubles the capacity while keeping the load factor, the
size, every binding and well-formedness. -/
theorem resize_spec (hash : K → Nat) (m : HashMap K V) (hwf : WF hash m) :
    WF hash (resize hash m) ∧
    (resize hash m).cap = m.cap * 2 ∧
    (resize hash m).load = m.load ∧
    (resize hash m).size = m.size ∧
    (∀ k', entry? hash (resize hash m) k' = entry? hash m k') := by
  have hpos2 : 0 < m.cap * 2 := by
    have h := hwf.hpos
    omega
  have hwf1 : WF hash
      (⟨m.cap * 2, m.load, List.replicate (m.cap * 2) Option.none, 0⟩ : HashMap K V) :=
    WF_fresh hash (m.cap * 2) m.load hpos2
  have habs : ∀ kv ∈ entriesOf m.buckets,
      entry? hash
        (⟨m.cap * 2, m.load, List.replicate (m.cap * 2) Option.none, 0⟩ : HashMap K V)
        kv.1 = Option.none :=
    fun kv _ => entry?_fresh hash (m.cap * 2) m.load kv.1
  have hnd : ((entriesOf m.buckets).map Prod.fst).Nodup := items_keys_nodup hash m hwf
  rcases reinsert_fold_spec hash (entriesOf m.buckets) _ hwf1 habs hnd with
    ⟨hW, hC, hL, hS, hE⟩
  rw [resize_eq_fold]
  refine ⟨hW, hC.trans rfl, hL.trans rfl, ?_, ?_⟩
  · refine hS.trans ?_
    show 0 + (entriesOf m.buckets).length = m.size
    rw [hwf.hsize]
    omega
  · intro k'
    refine (hE k').trans ?_
    have hitems : entry? hash m k' = lookupKey k' (entriesOf m.buckets) :=
      entry?_eq_items_lookup hash m hwf k'
    rw [← hitems,
      entry?_fresh hash (m.cap * 2) m.load k']
    cases entry? hash m k' with
    | none => rfl
    | some w => rfl

/-- `set` unfolded to an explicit conditional. -/
theorem set_eq (hash : K → Nat) (m : HashMap K V) (k : K) (v : PyObj V) :
    set hash m k v =
      (if (setRaw hash m k v).1 = true then
        (if (((setRaw hash m k v).2.size + 1 : Nat) : ℚ) /
              (((setRaw hash m k v).2.cap : Nat) : ℚ) > (setRaw hash m k v).2.load
         then resize hash (⟨(setRaw hash m k v).2.cap, (setRaw hash m k v).2.load,
            (setRaw hash m k v).2.buckets, (setRaw hash m k v).2.size + 1⟩ : HashMap K V)
         else (⟨(setRaw hash m k v).2.cap, (setRaw hash m k v).2.load,
            (setRaw hash m k v).2.buckets, (setRaw hash m k v).2.size + 1⟩ : HashMap K V))
      else (setRaw hash m k v).2) := rfl

/-- `HashMap.set`: well-formedness is kept, the load factor survives, the
capacity stays or doubles, the size grows exactly on fresh keys, and lookups
see exactly the new binding. -/
theorem set_spec (hash : K → Nat) (m : HashMap K V) (k : K) (v : PyObj V)
    (hwf : WF hash m) :
    WF hash (set hash m k v) ∧
    (set hash m k v).load = m.load ∧
    ((set hash m k v).cap = m.cap ∨ (set hash m k v).cap = m.cap * 2) ∧
    (set hash m k v).size = m.size + (if (entry? hash m k).isNone then 1 else 0) ∧
    (∀ k', entry? hash (set hash m k v) k' =
      if k' = k then some v else entry? hash m k') := by
  rw [set_eq]
  by_cases hr : (setRaw hash m k v).1 = true
  · rw [if_pos hr]
    have hins : (entry? hash m k).isNone = true := by
      rw [← setRaw_fst hash m k v]
      exact hr
    have hwfm2 : WF hash (⟨(setRaw hash m k v).2.cap, (setRaw hash m k v).2.load,
        (setRaw hash m k v).2.buckets, (setRaw hash m k v).2.size + 1⟩ : HashMap K V) :=
      setRaw_WF_sized hash m k v hwf _ (by rw [setRaw_size, hins]; rfl)
    by_cases hload : (((setRaw hash m k v).2.size + 1 : Nat) : ℚ) /
        (((setRaw hash m k v).2.cap : Nat) : ℚ) > (setRaw hash m k v).2.load
    · rw [if_pos hload]
      rcases resize_spec hash _ hwfm2 with ⟨hW, hC, hL, hS, hE⟩
      refine ⟨hW, hL.trans rfl, Or.inr (hC.trans rfl), ?_, ?_⟩
      · refine hS.trans ?_
        show (setRaw hash m k v).2.size + 1 = _
        rw [setRaw_size, hins]
        rfl
      · intro k'
        exact (hE k').trans (setRaw_entry? hash m k v hwf k')
    · rw [if_neg hload]
      refine ⟨hwfm2, rfl, Or.inl rfl, ?_, ?_⟩
      · show (setRaw hash m k v).2.size + 1 = _
        rw [setRaw_size, hins]
        rfl
      · intro k'
        exact setRaw_entry? hash m k v hwf k'
  · rw [if_neg hr]
    have hf : (setRaw hash m k v).1 = false := by
      cases h2 : (setRaw hash m k v).1 with
      | false => rfl
      | true => exact absurd h2 hr
    have hnotins : (entry? hash m k).isNone = false :=
      (setRaw_fst hash m k v).symm.trans hf
    refine ⟨?_, rfl, Or.inl rfl, ?_, ?_⟩
    · exact setRaw_WF_sized hash m k v hwf m.size (by rw [hnotins]; rfl)
    · show (setRaw hash m k v).2.size = _
      rw [setRaw_size, hnotins]
      rfl
    · intro k'
      exact setRaw_entry? hash m k v hwf k'

/-- `delete` unfolded to the match of the source. -/
theorem delete_eq (hash : K → Nat) (m : HashMap K V) (k : K) :
    delete hash m k =
      (match m.buckets.getD (bucket_index hash m.cap k) Option.none with
       | Option.none => (false, m)
       | some b =>
         ((llDelete k b).1,
          ⟨m.cap, m.load,
           m.buckets.set (bucket_index hash m.cap k) (some (llDelete k b).2),
           if (llDelete k b).1 then m.size - 1 else m.size⟩)) := rfl

/-- `HashMap.delete`: well-formedness is kept, the flag reports presence, the
shape fields survive, the size drops exactly on present keys, and lookups no
longer see the key. -/
theorem delete_spec (hash : K → Nat) (m : HashMap K V) (k : K) (hwf : WF hash m) :
    WF hash (delete hash m k).2 ∧
    (delete hash m k).1 = (entry? hash m k).isSome ∧
    (delete hash m k).2.cap = m.cap ∧
    (delete hash m k).2.load = m.load ∧
    (delete hash m k).2.size =
      m.size - (if (entry? hash m k).isSome then 1 else 0) ∧
    (∀ k', entry? hash (delete hash m k).2 k' =
      if k' = k then Option.none else entry? hash m k') := by
  rw [delete_eq]
  cases hb0 : m.buckets.getD (bucket_index hash m.cap k) Option.none with
  | none =>
    have he : entry? hash m k = Option.none := by
      rw [entry?_eq_lookup_bucket, hb0]
      rfl
    refine ⟨hwf, ?_, rfl, rfl, ?_, ?_⟩
    · rw [he]
      rfl
    · rw [he]
      rfl
    · intro k'
      by_cases hkk : k' = k
      · rw [if_pos hkk, hkk]
        exact he
      · rw [if_neg hkk]
  | some b =>
    have hib : m.buckets[bucket_index hash m.cap k]? = some (some b) :=
      getD_eq_some m.buckets _ b hb0
    have hnd : (b.map Prod.fst).Nodup := hwf.hnodup _ b hib
    have hlt : bucket_index hash m.cap k < m.buckets.length :=
      (List.getElem?_eq_some_iff.mp hib).1
    have he : entry? hash m k = lookupKey k b := by
      rw [entry?_eq_lookup_bucket, hb0]
      rfl
    refine ⟨?_, ?_, rfl, rfl, ?_, ?_⟩
    · constructor
      · show (m.buckets.set (bucket_index hash m.cap k) (some (llDelete k b).2)).length
            = m.cap
        rw [List.length_set]
        exact hwf.hlen
      · exact hwf.hpos
      · intro i c kv hic hkv
        show bucket_index hash m.cap kv.1 = i
        rw [buckets_mk] at hic
        by_cases hi : i = bucket_index hash m.cap k
        · subst hi
          rw [getElem?_set_self_of_lt _ _ _ hlt] at hic
          cases hic
          exact hwf.hidx _ b kv hib (llDelete_mem k b kv hkv)
        · rw [List.getElem?_set_ne (fun he2 => hi he2.symm)] at hic
          exact hwf.hidx i c kv hic hkv
      · intro i c hic
        rw [buckets_mk] at hic
        by_cases hi : i = bucket_index hash m.cap k
        · subst hi
          rw [getElem?_set_self_of_lt _ _ _ hlt] at hic
          cases hic
          exact llDelete_nodup k b hnd
        · rw [List.getElem?_set_ne (fun he2 => hi he2.symm)] at hic
          exact hwf.hnodup i c hic
      · show (if (llDelete k b).1 = true then m.size - 1 else m.size) =
          (entriesOf (m.buckets.set (bucket_index hash m.cap k)
            (some (llDelete k b).2))).length
        have hlenold : (entriesOf m.buckets).length =
            (entriesOf (m.buckets.take (bucket_index hash m.cap k))).length +
              (b.length +
                (entriesOf (m.buckets.drop (bucket_index hash m.cap k + 1))).length) := by
          conv_lhs => rw [buckets_decomp m.buckets _ (some b) hib]
          rw [entriesOf_append, entriesOf_cons, Option.getD_some, List.length_append,
            List.length_append]
        rw [set_decomp _ _ _ hlt, entriesOf_append, entriesOf_cons, Option.getD_some,
          List.length_append, List.length_append, hwf.hsize, hlenold,
          llDelete_fst, llDelete_length]
        by_cases hsome : (lookupKey k b).isSome = true
        · rw [if_pos hsome, if_pos hsome]
          rcases Option.isSome_iff_exists.mp hsome with ⟨w, hw⟩
          have hbpos : 0 < b.length := List.length_pos_of_mem (lookupKey_mem k b w hw)
          omega
        · rw [if_neg hsome, if_neg hsome]
    · show (llDelete k b).1 = (entry? hash m k).isSome
      rw [llDelete_fst, he]
    · show (if (llDelete k b).1 = true then m.size - 1 else m.size) =
        m.size - (if (entry? hash m k).isSome then 1 else 0)
      rw [llDelete_fst, he]
      by_cases hsome : (lookupKey k b).isSome = true
      · rw [if_pos hsome, if_pos hsome]
      · rw [if_neg hsome, if_neg hsome]
        omega
    · intro k'
      rw [entry?_mk]
      by_cases hik : bucket_index hash m.cap k' = bucket_index hash m.cap k
      · rw [hik, getElem?_set_self_of_lt _ _ _ hlt]
        show lookupKey k' (llDelete k b).2 = _
        by_cases hkk : k' = k
        · rw [if_pos hkk, hkk]
          exact llDelete_lookup_self k b hnd
        · rw [if_neg hkk, llDelete_lookup_other k k' b hkk,
            entry?_eq_lookup_bucket, hik, hb0, Option.getD_some]
      · rw [List.getElem?_set_ne (fun he2 => hik he2.symm)]
        have hkk : k' ≠ k := fun he2 => hik (by rw [he2])
        rw [if_neg hkk, entry?_eq_lookup_bucket, getD_buckets]

/-- Folding `set` over pairs keeps well-formedness and the load factor, and
the final bindings follow the last write per key. -/
theorem setFold_spec (hash : K → Nat) (ps : List (K × PyObj V)) :
    ∀ (m : HashMap K V), WF hash m →
    WF hash (setFold hash m ps) ∧
    (setFold hash m ps).load = m.load ∧
    (∀ k', entry? hash (setFold hash m ps) k' =
      (match lastVal k' ps with
       | some w => some w
       | Option.none => entry? hash m k')) := by
  induction ps with
  | nil =>
    intro m hwf
    exact ⟨hwf, rfl, fun k' => rfl⟩
  | cons a t ih =>
    intro m hwf
    rcases set_spec hash m a.1 a.2 hwf with ⟨hW, hL, _, _, hE⟩
    rcases ih (set hash m a.1 a.2) hW with ⟨hW2, hL2, hE2⟩
    refine ⟨hW2, hL2.trans hL, ?_⟩
    intro k'
    refine (hE2 k').trans ?_
    show (match lastVal k' t with
          | some w => some w
          | Option.none => entry? hash (set hash m a.1 a.2) k') =
      (match (match lastVal k' t with
              | some w => some w
              | Option.none => if a.1 = k' then some a.2 else Option.none) with
       | some w => some w
       | Option.none => entry? hash m k')
    cases lastVal k' t with
    | some w => rfl
    | none =>
      rw [hE k']
      by_cases ha : a.1 = k'
      · rw [if_pos ha, if_pos ha.symm]
      · rw [if_neg ha, if_neg (fun he => ha he.symm)]

/-- One `set` keeps the occupancy bound, granted `1/2 ≤ load · capacity`
(the size is an integer, so `⌊load·cap⌋ + 1 ≤ 2·load·cap` already holds
from `load·cap ≥ 1/2`). -/
theorem set_ratio (hash : K → Nat) (m : HashMap K V) (k : K) (v : PyObj V)
    (hwf : WF hash m) (hlc : 1/2 ≤ m.load * (m.cap : ℚ))
    (hratio : (m.size : ℚ) / (m.cap : ℚ) ≤ m.load) :
    ((set hash m k v).size : ℚ) / ((set hash m k v).cap : ℚ) ≤
      (set hash m k v).load ∧
    1/2 ≤ (set hash m k v).load * ((set hash m k v).cap : ℚ) := by
  have hcap0 : (0 : ℚ) < (m.cap : ℚ) := by
    exact_mod_cast hwf.hpos
  rw [set_eq]
  by_cases hr : (setRaw hash m k v).1 = true
  · rw [if_pos hr]
    have hins : (entry? hash m k).isNone = true := by
      rw [← setRaw_fst hash m k v]
      exact hr
    have hwfm2 : WF hash (⟨(setRaw hash m k v).2.cap, (setRaw hash m k v).2.load,
        (setRaw hash m k v).2.buckets, (setRaw hash m k v).2.size + 1⟩ : HashMap K V) :=
      setRaw_WF_sized hash m k v hwf _ (by rw [setRaw_size, hins]; rfl)
    by_cases hload : (((setRaw hash m k v).2.size + 1 : Nat) : ℚ) /
        (((setRaw hash m k v).2.cap : Nat) : ℚ) > (setRaw hash m k v).2.load
    · rw [if_pos hload]
      rcases resize_spec hash _ hwfm2 with ⟨_, hC, hL, hS, _⟩
      rw [hS, hC, hL]
      constructor
      · show ((m.size + 1 : Nat) : ℚ) / ((m.cap * 2 : Nat) : ℚ) ≤ m.load
        push_cast
        rw [div_le_iff (by linarith)]
        have h1 : (m.size : ℚ) ≤ m.load * (m.cap : ℚ) := by
          rw [div_le_iff hcap0] at hratio
          exact hratio
        by_cases hone : 1 ≤ m.load * (m.cap : ℚ)
        · linarith [h1, hone]
        · have hs1 : (m.size : ℚ) < 1 := lt_of_le_of_lt h1 (lt_of_not_le hone)
          have hs0 : m.size = 0 := by
            have h2 : m.size < 1 := by exact_mod_cast hs1
            omega
          rw [hs0]
          push_cast
          linarith [hlc]
      · show (1 : ℚ)/2 ≤ m.load * ((m.cap * 2 : Nat) : ℚ)
        push_cast
        linarith [hlc]
    · rw [if_neg hload]
      constructor
      · show (((setRaw hash m k v).2.size + 1 : Nat) : ℚ) /
            (((setRaw hash m k v).2.cap : Nat) : ℚ) ≤ (setRaw hash m k v).2.load
        exact le_of_not_lt hload
      · exact hlc
  · rw [if_neg hr]
    exact ⟨hratio, hlc⟩

/-- Folding `set` keeps the occupancy bound, granted `1/2 ≤ load · capacity`. -/
theorem setFold_ratio (hash : K → Nat) (ps : List (K × PyObj V)) :
    ∀ (m : HashMap K V), WF hash m → 1/2 ≤ m.load * (m.cap : ℚ) →
    (m.size : ℚ) / (m.cap : ℚ) ≤ m.load →
    WF hash (setFold hash m ps) ∧
    1/2 ≤ (setFold hash m ps).load * ((setFold hash m ps).cap : ℚ) ∧
    ((setFold hash m ps).size : ℚ) / ((setFold hash m ps).cap : ℚ) ≤
      (setFold hash m ps).load := by
  induction ps with
  | nil =>
    intro m hwf hlc hratio
    exact ⟨hwf, hlc, hratio⟩
  | cons a t ih =>
    intro m hwf hlc hratio
    rcases set_spec hash m a.1 a.2 hwf with ⟨hW, _, _, _, _⟩
    rcases set_ratio hash m a.1 a.2 hwf hlc hratio with ⟨hratio2, hlc2⟩
    exact ih (set hash m a.1 a.2) hW hlc2 hratio2

/-- Running counted operations from a well-formed table: the table stays
well-formed, and size + deletions + starting insert count balances starting
size + insert count + starting delete count. -/
theorem opCount_fold_spec (hash : K → Nat) (ops : List (MOp K V)) :
    ∀ (m : HashMap K V) (ins del : Nat), WF hash m →
    WF hash (ops.foldl (opCount hash) (m, ins, del)).1 ∧
    (ops.foldl (opCount hash) (m, ins, del)).1.size +
        (ops.foldl (opCount hash) (m, ins, del)).2.2 + ins =
      m.size + del + (ops.foldl (opCount hash) (m, ins, del)).2.1 := by
  induction ops with
  | nil =>
    intro m ins del hwf
    exact ⟨hwf, rfl⟩
  | cons op t ih =>
    intro m ins del hwf
    cases op with
    | mset k v =>
      rcases set_spec hash m k v hwf with ⟨hW, _, _, hS, _⟩
      by_cases hn : (entry? hash m k).isNone = true
      · have hacc : opCount hash (m, ins, del) (MOp.mset k v) =
            (set hash m k v, ins + 1, del) := by
          show (set hash m k v,
            (if (entry? hash m k).isNone then ins + 1 else ins), del) = _
          rw [hn]
          rfl
        rw [List.foldl_cons, hacc]
        rcases ih (set hash m k v) (ins + 1) del hW with ⟨hW2, hbal⟩
        rw [hn] at hS
        simp at hS
        refine ⟨hW2, ?_⟩
        omega
      · have hf : (entry? hash m k).isNone = false := by
          cases h2 : (entry? hash m k).isNone with
          | false => rfl
          | true => exact absurd h2 hn
        have hacc : opCount hash (m, ins, del) (MOp.mset k v) =
            (set hash m k v, ins, del) := by
          show (set hash m k v,
            (if (entry? hash m k).isNone then ins + 1 else ins), del) = _
          rw [hf]
          rfl
        rw [List.foldl_cons, hacc]
        rcases ih (set hash m k v) ins del hW with ⟨hW2, hbal⟩
        rw [hf] at hS
        simp at hS
        refine ⟨hW2, ?_⟩
        omega
    | mdel k =>
      rcases delete_spec hash m k hwf with ⟨hW, hfst, _, _, hS, _⟩
      by_cases hp : (entry? hash m k).isSome = true
      · have hacc : opCount hash (m, ins, del) (MOp.mdel k) =
            ((delete hash m k).2, ins, del + 1) := by
          show ((delete hash m k).2, ins,
            (if (delete hash m k).1 then del + 1 else del)) = _
          rw [hfst, hp]
          rfl
        rw [List.foldl_cons, hacc]
        rcases ih (delete hash m k).2 ins (del + 1) hW with ⟨hW2, hbal⟩
        rw [hp] at hS
        rcases Option.isSome_iff_exists.mp hp with ⟨w, hw⟩
        have hmem : (k, w) ∈ items m := (mem_items_iff hash m hwf k w).mpr hw
        have hpos1 : 0 < m.size := by
          rw [hwf.hsize]
          exact List.length_pos_of_mem hmem
        simp at hS
        refine ⟨hW2, ?_⟩
        omega
      · have hf : (entry? hash m k).isSome = false := by
          cases h2 : (entry? hash m k).isSome with
          | false => rfl
          | true => exact absurd h2 hp
        have hacc : opCount hash (m, ins, del) (MOp.mdel k) =
            ((delete hash m k).2, ins, del) := by
          show ((delete hash m k).2, ins,
            (if (delete hash m k).1 then del + 1 else del)) = _
          rw [hfst, hf]
          rfl
        rw [List.foldl_cons, hacc]
        rcases ih (delete hash m k).2 ins del hW with ⟨hW2, hbal⟩
        rw [hf] at hS
        simp at hS
        refine ⟨hW2, ?_⟩
        omega

/-- Evaluation rule for `set` when the occupancy check fails (no resize). -/
theorem set_no_resize (hash : K → Nat) (m : HashMap K V) (k : K) (v : PyObj V)
    (hcond : ¬ (((m.size + 1 : Nat) : ℚ) / ((m.cap : Nat) : ℚ) > m.load)) :
    set hash m k v =
      (if (setRaw hash m k v).1 = true then
        (⟨m.cap, m.load, (setRaw hash m k v).2.buckets, m.size + 1⟩ : HashMap K V)
      else (setRaw hash m k v).2) := by
  rw [set_eq]
  have hc2 : ¬ ((((setRaw hash m k v).2.size + 1 : Nat) : ℚ) /
      (((setRaw hash m k v).2.cap : Nat) : ℚ) > (setRaw hash m k v).2.load) := hcond
  rw [if_neg hc2]
  rfl

/-- Evaluation rule for `set` when an insertion trips the occupancy check. -/
theorem set_with_resize (hash : K → Nat) (m : HashMap K V) (k : K) (v : PyObj V)
    (hr : (setRaw hash m k v).1 = true)
    (hcond : ((m.size + 1 : Nat) : ℚ) / ((m.cap : Nat) : ℚ) > m.load) :
    set hash m k v =
      resize hash (⟨m.cap, m.load, (setRaw hash m k v).2.buckets, m.size + 1⟩ : HashMap K V) := by
  rw [set_eq, if_pos hr]
  have hc2 : (((setRaw hash m k v).2.size + 1 : Nat) : ℚ) /
      (((setRaw hash m k v).2.cap : Nat) : ℚ) > (setRaw hash m k v).2.load := hcond
  rw [if_pos hc2]
  rfl

/-- Evaluation rule for `bulk_set` when the needed capacity exceeds the
current one: the buckets are wiped before the inserts. -/
theorem bulk_set_eval_wipe (hash : K → Nat) (m : HashMap K V)
    (ps : List (K × PyObj V)) (needed : Int)
    (hneed : Rat.floor (((ps.length : Nat) : ℚ) / m.load) + 1 = needed)
    (hlt : (m.cap : Int) < needed) :
    bulk_set hash m ps =
      List.foldl (fun acc kv => set hash acc kv.1 kv.2)
        (⟨growCap m.cap needed.toNat, m.load,
          List.replicate (growCap m.cap needed.toNat) Option.none, 0⟩ : HashMap K V)
        ps := by
  show List.foldl (fun acc kv => set hash acc kv.1 kv.2)
      (if ((m.cap : Nat) : Int) < Rat.floor (((ps.length : Nat) : ℚ) / m.load) + 1 then
        (⟨growCap m.cap (Rat.floor (((ps.length : Nat) : ℚ) / m.load) + 1).toNat, m.load,
          List.replicate
            (growCap m.cap (Rat.floor (((ps.length : Nat) : ℚ) / m.load) + 1).toNat)
            Option.none, 0⟩ : HashMap K V)
      else m) ps = _
  rw [hneed, if_pos hlt]

end HashMap

/-- C2: the spec says the strict lookup `m[k]` fails with `KeyNotFound` iff
the key is absent, and in particular a key stored with value `None` is
returned, because a sentinel distinguishes absence.  The code refutes this:
`HashMap.get` conflates a stored Python `None` with absence (`return default
if v is None else v`), so after storing `None` under key 1 the key is present
(`entry?` sees the binding) yet `Dictionary.__getitem__` gets the sentinel
back and raises `KeyError`. -/
theorem C2_stored_none_raises_keyerror :
    HashMap.entry? (fun n => n)
        (HashMap.set (fun n => n) (HashMap.init 4 (3/4) : HashMap Nat Nat) 1 PyObj.pynone) 1
      = some PyObj.pynone ∧
    Dictionary.getItem (fun n => n)
        (HashMap.set (fun n => n) (HashMap.init 4 (3/4) : HashMap Nat Nat) 1 PyObj.pynone) 1
      = Except.error PyErr.keyError := by
  have hinit : (HashMap.init 4 (3/4) : HashMap Nat Nat) =
      ⟨4, 3/4, [Option.none, Option.none, Option.none, Option.none], 0⟩ := rfl
  rw [hinit]
  have h1 : HashMap.set (fun n => n)
      (⟨4, 3/4, [Option.none, Option.none, Option.none, Option.none], 0⟩ : HashMap Nat Nat)
      1 PyObj.pynone =
      ⟨4, 3/4, [Option.none, some [(1, PyObj.pynone)], Option.none, Option.none], 1⟩ := by
    rw [HashMap.set_no_resize (fun n => n) _ 1 PyObj.pynone (by norm_num)]
    rfl
  rw [h1]
  exact ⟨rfl, rfl⟩

/-- C1: the spec says `bulkInsert` resizes at most once — a resize rehashing
every existing entry — and then inserts the pairs, so entries present before
the call and not overwritten survive.  The code refutes this: when the needed
capacity exceeds the current one, `bulk_set` replaces the buckets with fresh
empty ones and zeroes the size without rehashing, so prior entries are lost.
Here key 0 is stored, then `bulk_set` of four pairs (needing capacity
`int(4/0.75)+1 = 6 > 4`) erases it although none of the pairs uses key 0. -/
theorem C1_bulk_set_loses_prior_entries :
    HashMap.entry? (fun n => n)
        (HashMap.set (fun n => n) (HashMap.init 4 (3/4) : HashMap Nat Nat) 0 (PyObj.val 99)) 0
      = some (PyObj.val 99) ∧
    (0 : Nat) ∉ ([(1, PyObj.val 1), (2, PyObj.val 2), (3, PyObj.val 3),
        (4, PyObj.val 4)] : List (Nat × PyObj Nat)).map Prod.fst ∧
    HashMap.entry? (fun n => n)
        (HashMap.bulk_set (fun n => n)
          (HashMap.set (fun n => n) (HashMap.init 4 (3/4) : HashMap Nat Nat) 0 (PyObj.val 99))
          [(1, PyObj.val 1), (2, PyObj.val 2), (3, PyObj.val 3), (4, PyObj.val 4)]) 0
      = Option.none := by
  have hinit : (HashMap.init 4 (3/4) : HashMap Nat Nat) =
      ⟨4, 3/4, [Option.none, Option.none, Option.none, Option.none], 0⟩ := rfl
  have h0 : HashMap.set (fun n => n)
      (⟨4, 3/4, [Option.none, Option.none, Option.none, Option.none], 0⟩ : HashMap Nat Nat)
      0 (PyObj.val 99) =
      ⟨4, 3/4, [some [(0, PyObj.val 99)], Option.none, Option.none, Option.none], 1⟩ := by
    rw [HashMap.set_no_resize (fun n => n) _ 0 (PyObj.val 99) (by norm_num)]
    rfl
  rw [hinit, h0]
  refine ⟨rfl, by decide, ?_⟩
  have hneed : Rat.floor (((([(1, PyObj.val 1), (2, PyObj.val 2), (3, PyObj.val 3),
      (4, PyObj.val 4)] : List (Nat × PyObj Nat)).length : Nat) : ℚ) /
      (⟨4, 3/4, [some [(0, PyObj.val 99)], Option.none, Option.none, Option.none], 1⟩ :
        HashMap Nat Nat).load) + 1 = (6 : Int) := by
    norm_num [Rat.floor_def']
  rw [HashMap.bulk_set_eval_wipe (fun n => n) _ _ 6 hneed (by norm_num)]
  rw [show HashMap.growCap
      (⟨4, 3/4, [some [(0, PyObj.val 99)], Option.none, Option.none, Option.none], 1⟩ :
        HashMap Nat Nat).cap (6 : Int).toNat = 8 from by simp [HashMap.growCap]]
  rw [show (⟨4, 3/4, [some [(0, PyObj.val 99)], Option.none, Option.none, Option.none], 1⟩ :
      HashMap Nat Nat).load = (3/4 : ℚ) from rfl]
  have h1 : HashMap.set (fun n => n)
      (⟨8, 3/4, List.replicate 8 Option.none, 0⟩ : HashMap Nat Nat) 1 (PyObj.val 1) =
      ⟨8, 3/4, [Option.none, some [(1, PyObj.val 1)], Option.none, Option.none,
        Option.none, Option.none, Option.none, Option.none], 1⟩ := by
    rw [HashMap.set_no_resize (fun n => n) _ 1 (PyObj.val 1) (by norm_num)]
    rfl
  have h2 : HashMap.set (fun n => n)
      (⟨8, 3/4, [Option.none, some [(1, PyObj.val 1)], Option.none, Option.none,
        Option.none, Option.none, Option.none, Option.none], 1⟩ : HashMap Nat Nat)
      2 (PyObj.val 2) =
      ⟨8, 3/4, [Option.none, some [(1, PyObj.val 1)], some [(2, PyObj.val 2)], Option.none,
        Option.none, Option.none, Option.none, Option.none], 2⟩ := by
    rw [HashMap.set_no_resize (fun n => n) _ 2 (PyObj.val 2) (by norm_num)]
    rfl
  have h3 : HashMap.set (fun n => n)
      (⟨8, 3/4, [Option.none, some [(1, PyObj.val 1)], some [(2, PyObj.val 2)], Option.none,
        Option.none, Option.none, Option.none, Option.none], 2⟩ : HashMap Nat Nat)
      3 (PyObj.val 3) =
      ⟨8, 3/4, [Option.none, some [(1, PyObj.val 1)], some [(2, PyObj.val 2)],
        some [(3, PyObj.val 3)], Option.none, Option.none, Option.none, Option.none], 3⟩ := by
    rw [HashMap.set_no_resize (fun n => n) _ 3 (PyObj.val 3) (by norm_num)]
    rfl
  have h4 : HashMap.set (fun n => n)
      (⟨8, 3/4, [Option.none, some [(1, PyObj.val 1)], some [(2, PyObj.val 2)],
        some [(3, PyObj.val 3)], Option.none, Option.none, Option.none, Option.none], 3⟩ :
        HashMap Nat Nat) 4 (PyObj.val 4) =
      ⟨8, 3/4, [Option.none, some [(1, PyObj.val 1)], some [(2, PyObj.val 2)],
        some [(3, PyObj.val 3)], some [(4, PyObj.val 4)], Option.none, Option.none,
        Option.none], 4⟩ := by
    rw [HashMap.set_no_resize (fun n => n) _ 4 (PyObj.val 4) (by norm_num)]
    rfl
  show HashMap.entry? (fun n => n)
      (List.foldl (fun acc kv => HashMap.set (fun n => n) acc kv.1 kv.2)
        (HashMap.set (fun n => n)
          (⟨8, 3/4, List.replicate 8 Option.none, 0⟩ : HashMap Nat Nat) 1 (PyObj.val 1))
        [(2, PyObj.val 2), (3, PyObj.val 3), (4, PyObj.val 4)]) 0 = Option.none
  rw [h1]
  show HashMap.entry? (fun n => n)
      (List.foldl (fun acc kv => HashMap.set (fun n => n) acc kv.1 kv.2)
        (HashMap.set (fun n => n)
          (⟨8, 3/4, [Option.none, some [(1, PyObj.val 1)], Option.none, Option.none,
            Option.none, Option.none, Option.none, Option.none], 1⟩ : HashMap Nat Nat)
          2 (PyObj.val 2))
        [(3, PyObj.val 3), (4, PyObj.val 4)]) 0 = Option.none
  rw [h2]
  show HashMap.entry? (fun n => n)
      (List.foldl (fun acc kv => HashMap.set (fun n => n) acc kv.1 kv.2)
        (HashMap.set (fun n => n)
          (⟨8, 3/4, [Option.none, some [(1, PyObj.val 1)], some [(2, PyObj.val 2)],
            Option.none, Option.none, Option.none, Option.none, Option.none], 2⟩ :
            HashMap Nat Nat) 3 (PyObj.val 3))
        [(4, PyObj.val 4)]) 0 = Option.none
  rw [h3]
  show HashMap.entry? (fun n => n)
      (List.foldl (fun acc kv => HashMap.set (fun n => n) acc kv.1 kv.2)
        (HashMap.set (fun n => n)
          (⟨8, 3/4, [Option.none, some [(1, PyObj.val 1)], some [(2, PyObj.val 2)],
            some [(3, PyObj.val 3)], Option.none, Option.none, Option.none, Option.none],
            3⟩ : HashMap Nat Nat) 4 (PyObj.val 4))
        ([] : List (Nat × PyObj Nat))) 0 = Option.none
  rw [h4]
  rfl

/-- C3 (counterexample): with load factor `0.1` — inside the permitted range
`[0.1, 1.0)` — and the default minimum capacity, a single insert violates
`size / capacity ≤ load_factor`: the one resize the code performs leaves the
ratio at `1/8 > 1/10`, and `set` never resizes twice.  So the invariant as
claimed does not hold for every permitted load factor. -/
theorem C3_load_invariant_counterexample :
    ((1 : ℚ)/10 ≥ 1/10 ∧ (1 : ℚ)/10 < 1) ∧
    ¬ (((HashMap.set (fun n => n) (HashMap.init 4 (1/10) : HashMap Nat Nat)
          0 (PyObj.val 7)).size : ℚ) /
        ((HashMap.set (fun n => n) (HashMap.init 4 (1/10) : HashMap Nat Nat)
          0 (PyObj.val 7)).cap : ℚ) ≤
        (HashMap.set (fun n => n) (HashMap.init 4 (1/10) : HashMap Nat Nat)
          0 (PyObj.val 7)).load) := by
  have hinit : (HashMap.init 4 (1/10) : HashMap Nat Nat) =
      ⟨4, 1/10, [Option.none, Option.none, Option.none, Option.none], 0⟩ := rfl
  have h1 : HashMap.set (fun n => n)
      (⟨4, 1/10, [Option.none, Option.none, Option.none, Option.none], 0⟩ : HashMap Nat Nat)
      0 (PyObj.val 7) =
      ⟨8, 1/10, [some [(0, PyObj.val 7)], Option.none, Option.none, Option.none,
        Option.none, Option.none, Option.none, Option.none], 1⟩ := by
    have hr1 : (HashMap.setRaw (fun n => n)
        (⟨4, 1/10, [Option.none, Option.none, Option.none, Option.none], 0⟩ : HashMap Nat Nat)
        0 (PyObj.val 7)).1 = true := rfl
    rw [HashMap.set_with_resize (fun n => n)
      (⟨4, 1/10, [Option.none, Option.none, Option.none, Option.none], 0⟩ : HashMap Nat Nat)
      0 (PyObj.val 7) hr1 (by norm_num)]
    rfl
  rw [hinit, h1]
  refine ⟨⟨by norm_num, by norm_num⟩, ?_⟩
  norm_num

/-- C3 (amended): the occupancy invariant `size / capacity ≤ load_factor`
does hold after every sequence of inserts provided the constructed table
additionally satisfies `1/2 ≤ load_factor · capacity` (the size being an
integer, one doubling then always suffices); without that side condition the
claim fails, as the counterexample shows. -/
theorem C3_load_invariant_amended {K V : Type} [DecidableEq K] (hash : K → Nat)
    (capacity : Nat) (load : ℚ) (hlo : 1/10 ≤ load) (hhi : load < 1)
    (hlc : 1/2 ≤ load * (((HashMap.init capacity load : HashMap K V)).cap : ℚ))
    (ps : List (K × PyObj V)) :
    ((setFold hash (HashMap.init capacity load : HashMap K V) ps).size : ℚ) /
        ((setFold hash (HashMap.init capacity load : HashMap K V) ps).cap : ℚ) ≤
      (setFold hash (HashMap.init capacity load : HashMap K V) ps).load := by
  have hr : (((HashMap.init capacity load : HashMap K V)).size : ℚ) /
      (((HashMap.init capacity load : HashMap K V)).cap : ℚ) ≤
      (HashMap.init capacity load : HashMap K V).load := by
    show ((0 : Nat) : ℚ) / (((HashMap.init capacity load : HashMap K V)).cap : ℚ) ≤ load
    rw [Nat.cast_zero, zero_div]
    linarith
  exact (HashMap.setFold_ratio hash ps (HashMap.init capacity load)
    (HashMap.WF_init hash capacity load) hlc hr).2.2

/-- Witness for C3 (amended) at capacity 8 with load factor 1/10 — a
configuration with `load · capacity = 4/5`, below 1 but above 1/2 — and one
insert. -/
theorem C3_witness :
    ((setFold (fun n => n) (HashMap.init 8 (1/10) : HashMap Nat Nat)
        [(0, PyObj.val 1)]).size : ℚ) /
      ((setFold (fun n => n) (HashMap.init 8 (1/10) : HashMap Nat Nat)
        [(0, PyObj.val 1)]).cap : ℚ) ≤
      (setFold (fun n => n) (HashMap.init 8 (1/10) : HashMap Nat Nat)
        [(0, PyObj.val 1)]).load :=
  C3_load_invariant_amended (fun n => n) 8 (1/10) (by norm_num) (by norm_num)
    (by show (1 : ℚ)/2 ≤ 1/10 * (((8 : Nat)) : ℚ)
        norm_num)
    [(0, PyObj.val 1)]

/-- C4: for any well-formed table and any sequence of `set` operations that
forces at least one resize (witnessed by the capacity having grown), every
key written by the sequence is still retrievable afterwards via `get` with
its last-set value. -/
theorem C4_resize_preserves_bindings {K V : Type} [DecidableEq K]
    (hash : K → Nat) (m : HashMap K V) (hwf : WF hash m)
    (ps : List (K × PyObj V)) (k : K) (v : PyObj V)
    (hgrew : m.cap < (setFold hash m ps).cap)
    (hlast : lastVal k ps = some v) :
    HashMap.get hash (setFold hash m ps) k PyObj.pynone = v := by
  rcases HashMap.setFold_spec hash ps m hwf with ⟨_, _, hE⟩
  have he : HashMap.entry? hash (setFold hash m ps) k = some v := by
    rw [hE k, hlast]
  rw [HashMap.get_eq_entry?, he]
  cases v with
  | pynone => rfl
  | val x => rfl
  | sentinel => rfl

/-- Witness for C4: four inserts into a table of capacity 4 with load factor
3/4 force a resize (capacity 8); key 2 still reads back its value. -/
theorem C4_witness :
    HashMap.get (fun n => n)
      (setFold (fun n => n) (HashMap.init 4 (3/4) : HashMap Nat Nat)
        [(0, PyObj.val 10), (1, PyObj.val 11), (2, PyObj.val 12), (3, PyObj.val 13)])
      2 PyObj.pynone = PyObj.val 12 := by
  have hinit : (HashMap.init 4 (3/4) : HashMap Nat Nat) =
      ⟨4, 3/4, [Option.none, Option.none, Option.none, Option.none], 0⟩ := rfl
  have h1 : HashMap.set (fun n => n)
      (⟨4, 3/4, [Option.none, Option.none, Option.none, Option.none], 0⟩ : HashMap Nat Nat)
      0 (PyObj.val 10) =
      ⟨4, 3/4, [some [(0, PyObj.val 10)], Option.none, Option.none, Option.none], 1⟩ := by
    rw [HashMap.set_no_resize (fun n => n) _ 0 (PyObj.val 10) (by norm_num)]
    rfl
  have h2 : HashMap.set (fun n => n)
      (⟨4, 3/4, [some [(0, PyObj.val 10)], Option.none, Option.none, Option.none], 1⟩ :
        HashMap Nat Nat) 1 (PyObj.val 11) =
      ⟨4, 3/4, [some [(0, PyObj.val 10)], some [(1, PyObj.val 11)], Option.none,
        Option.none], 2⟩ := by
    rw [HashMap.set_no_resize (fun n => n) _ 1 (PyObj.val 11) (by norm_num)]
    rfl
  have h3 : HashMap.set (fun n => n)
      (⟨4, 3/4, [some [(0, PyObj.val 10)], some [(1, PyObj.val 11)], Option.none,
        Option.none], 2⟩ : HashMap Nat Nat) 2 (PyObj.val 12) =
      ⟨4, 3/4, [some [(0, PyObj.val 10)], some [(1, PyObj.val 11)],
        some [(2, PyObj.val 12)], Option.none], 3⟩ := by
    rw [HashMap.set_no_resize (fun n => n) _ 2 (PyObj.val 12) (by norm_num)]
    rfl
  have hr4 : (HashMap.setRaw (fun n => n)
      (⟨4, 3/4, [some [(0, PyObj.val 10)], some [(1, PyObj.val 11)],
        some [(2, PyObj.val 12)], Option.none], 3⟩ : HashMap Nat Nat)
      3 (PyObj.val 13)).1 = true := rfl
  have h4 : HashMap.set (fun n => n)
      (⟨4, 3/4, [some [(0, PyObj.val 10)], some [(1, PyObj.val 11)],
        some [(2, PyObj.val 12)], Option.none], 3⟩ : HashMap Nat Nat) 3 (PyObj.val 13) =
      ⟨8, 3/4, [some [(0, PyObj.val 10)], some [(1, PyObj.val 11)],
        some [(2, PyObj.val 12)], some [(3, PyObj.val 13)], Option.none, Option.none,
        Option.none, Option.none], 4⟩ := by
    rw [HashMap.set_with_resize (fun n => n)
      (⟨4, 3/4, [some [(0, PyObj.val 10)], some [(1, PyObj.val 11)],
        some [(2, PyObj.val 12)], Option.none], 3⟩ : HashMap Nat Nat)
      3 (PyObj.val 13) hr4 (by norm_num)]
    rfl
  have hfold : setFold (fun n => n) (HashMap.init 4 (3/4) : HashMap Nat Nat)
      [(0, PyObj.val 10), (1, PyObj.val 11), (2, PyObj.val 12), (3, PyObj.val 13)] =
      ⟨8, 3/4, [some [(0, PyObj.val 10)], some [(1, PyObj.val 11)],
        some [(2, PyObj.val 12)], some [(3, PyObj.val 13)], Option.none, Option.none,
        Option.none, Option.none], 4⟩ := by
    rw [hinit]
    show List.foldl (fun acc kv => HashMap.set (fun n => n) acc kv.1 kv.2)
      (HashMap.set (fun n => n)
        (⟨4, 3/4, [Option.none, Option.none, Option.none, Option.none], 0⟩ : HashMap Nat Nat)
        0 (PyObj.val 10))
      [(1, PyObj.val 11), (2, PyObj.val 12), (3, PyObj.val 13)] = _
    rw [h1]
    show List.foldl (fun acc kv => HashMap.set (fun n => n) acc kv.1 kv.2)
      (HashMap.set (fun n => n)
        (⟨4, 3/4, [some [(0, PyObj.val 10)], Option.none, Option.none, Option.none], 1⟩ :
          HashMap Nat Nat) 1 (PyObj.val 11))
      [(2, PyObj.val 12), (3, PyObj.val 13)] = _
    rw [h2]
    show List.foldl (fun acc kv => HashMap.set (fun n => n) acc kv.1 kv.2)
      (HashMap.set (fun n => n)
        (⟨4, 3/4, [some [(0, PyObj.val 10)], some [(1, PyObj.val 11)], Option.none,
          Option.none], 2⟩ : HashMap Nat Nat) 2 (PyObj.val 12))
      [(3, PyObj.val 13)] = _
    rw [h3]
    show List.foldl (fun acc kv => HashMap.set (fun n => n) acc kv.1 kv.2)
      (HashMap.set (fun n => n)
        (⟨4, 3/4, [some [(0, PyObj.val 10)], some [(1, PyObj.val 11)],
          some [(2, PyObj.val 12)], Option.none], 3⟩ : HashMap Nat Nat) 3 (PyObj.val 13))
      ([] : List (Nat × PyObj Nat)) = _
    rw [h4]
    rfl
  exact C4_resize_preserves_bindings (fun n => n) (HashMap.init 4 (3/4))
    (HashMap.WF_init (fun n => n) 4 (3/4))
    [(0, PyObj.val 10), (1, PyObj.val 11), (2, PyObj.val 12), (3, PyObj.val 13)]
    2 (PyObj.val 12)
    (by rw [hfold]
        show (HashMap.init 4 (3/4) : HashMap Nat Nat).cap < 8
        show (4 : Nat) < 8
        decide)
    rfl

/-- C5 (counterexample): set key 1, delete it, set it again.  Distinct keys
ever inserted = 1 and successful deletions = 1, so the claimed identity
predicts size 0; the actual size is 1 (the key is present).  `size()` counts
keys currently present — insertion events minus deletions — not distinct keys
ever inserted minus deletions. -/
theorem C5_size_counterexample :
    (runCount (fun n => n) (HashMap.init 4 (3/4) : HashMap Nat Nat)
        [MOp.mset 1 (PyObj.val 5), MOp.mdel 1, MOp.mset 1 (PyObj.val 6)]).1.size = 1 ∧
    (setKeys ([MOp.mset 1 (PyObj.val 5), MOp.mdel 1, MOp.mset 1 (PyObj.val 6)] :
        List (MOp Nat Nat))).dedup.length = 1 ∧
    (runCount (fun n => n) (HashMap.init 4 (3/4) : HashMap Nat Nat)
        [MOp.mset 1 (PyObj.val 5), MOp.mdel 1, MOp.mset 1 (PyObj.val 6)]).2.2 = 1 ∧
    (1 : Nat) ≠ 1 - 1 := by
  have hinit : (HashMap.init 4 (3/4) : HashMap Nat Nat) =
      ⟨4, 3/4, [Option.none, Option.none, Option.none, Option.none], 0⟩ := rfl
  have h1 : HashMap.set (fun n => n)
      (⟨4, 3/4, [Option.none, Option.none, Option.none, Option.none], 0⟩ : HashMap Nat Nat)
      1 (PyObj.val 5) =
      ⟨4, 3/4, [Option.none, some [(1, PyObj.val 5)], Option.none, Option.none], 1⟩ := by
    rw [HashMap.set_no_resize (fun n => n) _ 1 (PyObj.val 5) (by norm_num)]
    rfl
  have h3 : HashMap.set (fun n => n)
      (⟨4, 3/4, [Option.none, some [], Option.none, Option.none], 0⟩ : HashMap Nat Nat)
      1 (PyObj.val 6) =
      ⟨4, 3/4, [Option.none, some [(1, PyObj.val 6)], Option.none, Option.none], 1⟩ := by
    rw [HashMap.set_no_resize (fun n => n) _ 1 (PyObj.val 6) (by norm_num)]
    rfl
  have hrun : runCount (fun n => n) (HashMap.init 4 (3/4) : HashMap Nat Nat)
      [MOp.mset 1 (PyObj.val 5), MOp.mdel 1, MOp.mset 1 (PyObj.val 6)] =
      (⟨4, 3/4, [Option.none, some [(1, PyObj.val 6)], Option.none, Option.none], 1⟩, 2, 1) := by
    rw [hinit]
    show List.foldl (opCount (fun n => n))
      (HashMap.set (fun n => n)
        (⟨4, 3/4, [Option.none, Option.none, Option.none, Option.none], 0⟩ : HashMap Nat Nat)
        1 (PyObj.val 5), 1, 0)
      [MOp.mdel 1, MOp.mset 1 (PyObj.val 6)] = _
    rw [h1]
    show List.foldl (opCount (fun n => n))
      (HashMap.set (fun n => n)
        (⟨4, 3/4, [Option.none, some [], Option.none, Option.none], 0⟩ : HashMap Nat Nat)
        1 (PyObj.val 6), 2, 1)
      ([] : List (MOp Nat Nat)) = _
    rw [h3]
    rfl
  rw [hrun]
  exact ⟨rfl, rfl, rfl, by decide⟩

/-- C5 (amended): from an empty table, `size()` equals the number of
insertion events (a `set` whose key was absent) minus the number of
successful deletions; `items()` yields exactly `size()` pairs, its keys are
pairwise distinct, and it holds exactly the live bindings. -/
theorem C5_size_items_amended {K V : Type} [DecidableEq K] (hash : K → Nat)
    (capacity : Nat) (load : ℚ) (ops : List (MOp K V)) :
    (runCount hash (HashMap.init capacity load : HashMap K V) ops).1.size +
        (runCount hash (HashMap.init capacity load : HashMap K V) ops).2.2 =
      (runCount hash (HashMap.init capacity load : HashMap K V) ops).2.1 ∧
    (HashMap.items (runCount hash (HashMap.init capacity load : HashMap K V) ops).1).length =
      (runCount hash (HashMap.init capacity load : HashMap K V) ops).1.size ∧
    ((HashMap.items
        (runCount hash (HashMap.init capacity load : HashMap K V) ops).1).map Prod.fst).Nodup ∧
    (∀ (k : K) (v : PyObj V),
      (k, v) ∈ HashMap.items (runCount hash (HashMap.init capacity load : HashMap K V) ops).1 ↔
        HashMap.entry? hash (runCount hash (HashMap.init capacity load : HashMap K V) ops).1 k
          = some v) := by
  have hrc : runCount hash (HashMap.init capacity load : HashMap K V) ops =
      ops.foldl (opCount hash) ((HashMap.init capacity load : HashMap K V), 0, 0) := rfl
  rcases HashMap.opCount_fold_spec hash ops (HashMap.init capacity load) 0 0
    (HashMap.WF_init hash capacity load) with ⟨hW, hbal⟩
  have h0 : (HashMap.init capacity load : HashMap K V).size = 0 := rfl
  rw [hrc]
  rw [h0] at hbal
  refine ⟨by omega, hW.hsize.symm, HashMap.items_keys_nodup hash _ hW, ?_⟩
  intro k v
  exact HashMap.mem_items_iff hash _ hW k v

end Inventory
